import Mathlib

/-!
# Verification of the SSMD → SSML conversion engine

A shallow embedding of the `ssmd` Python package (converter pipeline,
annotation registry, capability filter) over `List Char`, together with
theorems checking the natural-language specification against the code.

Python strings are embedded as `List Char`; `re` patterns are hand-compiled
into deterministic scanning functions that implement the leftmost-match,
alternation-priority and greedy/lazy semantics of the original pattern.
-/

/-- ASCII whitespace, the characters Python's `str.strip` and `\s` treat as
space for the inputs in scope. -/
def isWsChar (c : Char) : Bool :=
  c = ' ' || c = '\t' || c = '\n' || c = '\r' || c = '\x0b' || c = '\x0c'

/-- ASCII decimal digit (`\d`). -/
def isDigitChar (c : Char) : Bool :=
  '0' ≤ c && c ≤ '9'

/-- ASCII lowercase letter. -/
def isLowerChar (c : Char) : Bool :=
  'a' ≤ c && c ≤ 'z'

/-- ASCII uppercase letter. -/
def isUpperChar (c : Char) : Bool :=
  'A' ≤ c && c ≤ 'Z'

/-- ASCII letter or digit (the `[a-zA-Z0-9]` class used by lookarounds). -/
def isAlnumChar (c : Char) : Bool :=
  isLowerChar c || isUpperChar c || isDigitChar c

/-- Word character (`\w`), restricted to ASCII as used by the package. -/
def isWordChar (c : Char) : Bool :=
  isAlnumChar c || c = '_'

/-- The `[a-zA-Z0-9_-]` class of voice names. -/
def isVoiceNameChar (c : Char) : Bool :=
  isAlnumChar c || c = '_' || c = '-'

/-- Python `str.strip()`: drop whitespace from both ends. -/
def stripWs (cs : List Char) : List Char :=
  ((cs.dropWhile isWsChar).reverse.dropWhile isWsChar).reverse

/-- Does `pat` occur at the head of `cs`? -/
def startsWithL : List Char → List Char → Bool
  | _, [] => true
  | [], _ :: _ => false
  | c :: cs, p :: ps => c = p && startsWithL cs ps

/-- Does `pat` occur at the end of `cs` (Python `str.endswith`)? -/
def endsWithL (cs pat : List Char) : Bool :=
  startsWithL cs.reverse pat.reverse

/-- Does `pat` occur anywhere inside `cs` (Python `in` on strings)? -/
def containsSeq (cs pat : List Char) : Bool :=
  match cs with
  | [] => startsWithL [] pat
  | _ :: rest => startsWithL cs pat || containsSeq rest pat

/-- Split on a separator character (Python `str.split(",")`). -/
def splitOnChar (sep : Char) (cs : List Char) : List (List Char) :=
  match cs with
  | [] => [[]]
  | c :: rest =>
    let r := splitOnChar sep rest
    if c = sep then [] :: r
    else
      match r with
      | [] => [[c]]
      | g :: gs => (c :: g) :: gs

/-- `html.escape(text, quote=False)`: escape `&`, `<`, `>`.  Python's
`str.replace` never rescans replacement text, so this is a per-character map. -/
def escapeXml : List Char → List Char
  | [] => []
  | c :: rest =>
    if c = '&' then '&' :: 'a' :: 'm' :: 'p' :: ';' :: escapeXml rest
    else if c = '<' then '&' :: 'l' :: 't' :: ';' :: escapeXml rest
    else if c = '>' then '&' :: 'g' :: 't' :: ';' :: escapeXml rest
    else c :: escapeXml rest

/-- `html.unescape`, restricted to the XML entities `&amp;` `&lt;` `&gt;`
that `escape_xml` produces (the only entities arising in this development). -/
def unescapeXml : List Char → List Char
  | '&' :: 'a' :: 'm' :: 'p' :: ';' :: rest => '&' :: unescapeXml rest
  | '&' :: 'l' :: 't' :: ';' :: rest => '<' :: unescapeXml rest
  | '&' :: 'g' :: 't' :: ';' :: rest => '>' :: unescapeXml rest
  | c :: rest => c :: unescapeXml rest
  | [] => []

/-- Join chunks with a separator (Python `" ".join`). -/
def joinSep (sep : List Char) : List (List Char) → List Char
  | [] => []
  | [x] => x
  | x :: y :: rest => x ++ sep ++ joinSep sep (y :: rest)

/-- Typed annotation values, one constructor per variant class of
`ssmd/annotations` (`AudioAnnotation`, `ExtensionAnnotation`, …). -/
inductive Annot where
  | audio (url : List Char) (clipBegin clipEnd speed repeatCount soundLevel : Option (List Char))
      (altText : List Char)
  | ext (extensionName : List Char)
  | voice (vname vlanguage vgender vvariant : Option (List Char))
  | sayAs (interpretAs : List Char) (format detail : Option (List Char))
  | phoneme (phonemes : List Char)
  | prosody (volume rate pitch : Option (List Char))
  | subAlias (aliasText : List Char)
  | language (lang : List Char)
deriving DecidableEq

/-- Class tag of an annotation, used for the `isinstance(a, type(ann))`
duplicate check in `AnnotationProcessor.result`. -/
def annKind : Annot → Nat
  | .audio .. => 0
  | .ext .. => 1
  | .voice .. => 2
  | .sayAs .. => 3
  | .phoneme .. => 4
  | .prosody .. => 5
  | .subAlias .. => 6
  | .language .. => 7

/-- Audio file extensions recognized by `AudioAnnotation.regex`. -/
def audioExtensions : List (List Char) :=
  ["mp3".data, "ogg".data, "wav".data, "m4a".data, "aac".data, "flac".data]

/-- Case-insensitive comparison against a lowercase pattern at the end
(`re.IGNORECASE` on the extension alternation). -/
def endsWithLower (cs pat : List Char) : Bool :=
  endsWithL (cs.map Char.toLower) pat

/-- Scan for the first position where `tryAt` succeeds, returning the
consumed prefix (reversed accumulator), the hit, and nothing on failure.
This is the generic leftmost-match loop of `re.search`. -/
def scanFirst {α : Type} (tryAt : List Char → Option α) : List Char → Option (List Char × α)
  | [] => (tryAt []).map (fun a => ([], a))
  | c :: rest =>
    match tryAt (c :: rest) with
    | some a => some ([], a)
    | none =>
      match scanFirst tryAt rest with
      | some (pre, a) => some (c :: pre, a)
      | none => none

/-- Match `\d+(?:\.\d+)?[ms]` (a clip time: digits, optional fraction, then a
single `m` or `s`), returning the captured text and the rest. -/
def matchClipTime (cs : List Char) : Option (List Char × List Char) :=
  let ds := cs.takeWhile isDigitChar
  let rest := cs.drop ds.length
  if ds.isEmpty then none
  else
    match rest with
    | '.' :: more =>
      let fs := more.takeWhile isDigitChar
      let rest2 := more.drop fs.length
      if fs.isEmpty then
        -- no fractional part possible; fall back to unit right after digits
        match rest with
        | u :: r2 => if u = 'm' || u = 's' then some (ds ++ [u], r2) else none
        | [] => none
      else
        match rest2 with
        | u :: r3 => if u = 'm' || u = 's' then some (ds ++ '.' :: fs ++ [u], r3) else none
        | [] =>
          -- fraction cannot be followed by nothing; `[ms]` could still match the `.`? no
          none
    | u :: r2 => if u = 'm' || u = 's' then some (ds ++ [u], r2) else none
    | [] => none

/-- Number with optional decimal part (`\d+(?:\.\d+)?`). -/
def matchDecimalNum (cs : List Char) : Option (List Char × List Char) :=
  let ds := cs.takeWhile isDigitChar
  let rest := cs.drop ds.length
  if ds.isEmpty then none
  else
    match rest with
    | '.' :: more =>
      let fs := more.takeWhile isDigitChar
      if fs.isEmpty then some (ds, rest)
      else some (ds ++ '.' :: fs, more.drop fs.length)
    | _ => some (ds, rest)

/-- Try `clip:\s*(\d+(?:\.\d+)?[ms])-(\d+(?:\.\d+)?[ms])` at this position. -/
def tryClipAt (cs : List Char) : Option ((List Char × List Char) × List Char) :=
  if startsWithL cs "clip:".data then
    let r0 := (cs.drop 5).dropWhile isWsChar
    match matchClipTime r0 with
    | some (t1, '-' :: r1) =>
      match matchClipTime r1 with
      | some (t2, r2) => some ((t1, t2), r2)
      | none => none
    | _ => none
  else none

/-- Try `speed:\s*(\d+(?:\.\d+)?%)` at this position. -/
def trySpeedAt (cs : List Char) : Option (List Char × List Char) :=
  if startsWithL cs "speed:".data then
    let r0 := (cs.drop 6).dropWhile isWsChar
    match matchDecimalNum r0 with
    | some (n, '%' :: r1) => some (n ++ ['%'], r1)
    | _ => none
  else none

/-- Try `repeat:\s*(\d+)` at this position. -/
def tryRepeatAt (cs : List Char) : Option (List Char × List Char) :=
  if startsWithL cs "repeat:".data then
    let r0 := (cs.drop 7).dropWhile isWsChar
    let ds := r0.takeWhile isDigitChar
    if ds.isEmpty then none else some (ds, r0.drop ds.length)
  else none

/-- Optional sign (`[+-]?`) in front of the level value: the captured sign
characters and the remainder. -/
def levelSign : List Char → List Char × List Char
  | '+' :: r => (['+'], r)
  | '-' :: r => (['-'], r)
  | r => ([], r)

/-- Try `level:\s*([+-]?\d+(?:\.\d+)?dB)` at this position. -/
def tryLevelAt (cs : List Char) : Option (List Char × List Char) :=
  if startsWithL cs "level:".data then
    let r0 := (cs.drop 6).dropWhile isWsChar
    let sr := levelSign r0
    match matchDecimalNum sr.2 with
    | some (n, 'd' :: 'B' :: r2) => some (sr.1 ++ n ++ "dB".data, r2)
    | _ => none
  else none

/-- Replace every match of `tryAt` (returning the rest after the match) by
`repl`, scanning left to right without rescanning replacements (`re.sub`).
Fuel bounds the scan; `cs.length` always suffices since a match consumes at
least one character here. -/
def subAllFuel (tryAt : List Char → Option (List Char)) (repl : List Char) :
    Nat → List Char → List Char
  | _, [] => match tryAt [] with | _ => []
  | 0, cs => cs
  | fuel + 1, c :: rest =>
    match tryAt (c :: rest) with
    | some after =>
      if after.length < (c :: rest).length then
        repl ++ subAllFuel tryAt repl fuel after
      else
        c :: subAllFuel tryAt repl fuel rest
    | none => c :: subAllFuel tryAt repl fuel rest

/-- Try `\s*,\s*,\s*` at this position (the double-comma cleanup pattern). -/
def tryDoubleCommaAt (cs : List Char) : Option (List Char) :=
  match cs.dropWhile isWsChar with
  | ',' :: r1 =>
    match r1.dropWhile isWsChar with
    | ',' :: r2 => some (r2.dropWhile isWsChar)
    | _ => none
  | _ => none

/-- The cleanup `AudioAnnotation.__init__` applies to the leftover text after
splicing out recognized attributes: strip leading/trailing commas and
whitespace, collapse double commas to `", "`, strip commas again. -/
def audioAltCleanup (cs : List Char) : List Char :=
  -- re.sub(r"^[,\s]+|[\s,]+$", "")
  let isCw := fun c => c = ',' || isWsChar c
  let s1 := ((cs.dropWhile isCw).reverse.dropWhile isCw).reverse
  -- re.sub(r"\s*,\s*,\s*", ", ")
  let s2 := subAllFuel tryDoubleCommaAt ", ".data s1.length s1
  -- re.sub(r"^,\s*|,\s*$", "")
  let s3 := match s2 with
    | ',' :: r => r.dropWhile isWsChar
    | other => other
  let s4 := match s3.reverse.dropWhile isWsChar with
    | ',' :: r => r.reverse
    | _ => s3
  stripWs s4

/-- One attribute-splicing step of `AudioAnnotation.__init__`: find the first
match of a sub-pattern, capture its value, and splice the match out of the
text (`text[:m.start()] + text[m.end():]`). -/
def attrStep {β : Type} (tryAt : List Char → Option (β × List Char)) (r : List Char) :
    Option β × List Char :=
  match scanFirst tryAt r with
  | some (pre, (v, post)) => (some v, pre ++ post)
  | none => (none, r)

/-- Recognizer and field parser of `AudioAnnotation`: the anchored pattern
`^((?:https?://)?[^\s]+\.(?:mp3|ogg|wav|m4a|aac|flac))(?:\s+(.+))?$`
(case-insensitive on the extension) forces the URL to be the whole leading
non-whitespace run ending in a dot plus a known extension; any remainder is
whitespace followed by the attribute/alt-text group. -/
def tryAudio (s : List Char) : Option Annot :=
  let t := stripWs s
  let w := t.takeWhile (fun c => !isWsChar c)
  let rest := t.drop w.length
  if audioExtensions.any (fun e => endsWithLower w ('.' :: e) && e.length + 2 ≤ w.length) then
    let attrsAlt? : Option (List Char) :=
      match rest with
      | [] => some []
      | _ =>
        let c := rest.dropWhile isWsChar
        if c.isEmpty || c.contains '\n' then none else some c
    match attrsAlt? with
    | none => none
    | some attrsAlt =>
      let a0 := stripWs attrsAlt
      let c1 := attrStep tryClipAt a0
      let s1 := attrStep trySpeedAt c1.2
      let p1 := attrStep tryRepeatAt s1.2
      let l1 := attrStep tryLevelAt p1.2
      some (.audio w (c1.1.map Prod.fst) (c1.1.map Prod.snd) s1.1 p1.1 l1.1
        (stripWs (audioAltCleanup l1.2)))
  else none

/-- Recognizer of `ExtensionAnnotation`: `^ext:\s*(\w+)$`. -/
def tryExt (s : List Char) : Option Annot :=
  let t := stripWs s
  if startsWithL t "ext:".data then
    let r := (t.drop 4).dropWhile isWsChar
    let w := r.takeWhile isWordChar
    if w.isEmpty || !(r.drop w.length).isEmpty then none else some (.ext w)
  else none

/-- Iterated tail of `VoiceAnnotation.regex`:
`(?:\s*,\s*(?:gender:\s*(?:male|female|neutral)|variant:\s*\d+))*$`. -/
def voiceTailOk : Nat → List Char → Bool
  | _, [] => true
  | 0, _ => false
  | fuel + 1, cs =>
    match cs.dropWhile isWsChar with
    | ',' :: r2 =>
      let r3 := r2.dropWhile isWsChar
      if startsWithL r3 "gender:".data then
        let r4 := (r3.drop 7).dropWhile isWsChar
        if startsWithL r4 "male".data then voiceTailOk fuel (r4.drop 4)
        else if startsWithL r4 "female".data then voiceTailOk fuel (r4.drop 6)
        else if startsWithL r4 "neutral".data then voiceTailOk fuel (r4.drop 7)
        else false
      else if startsWithL r3 "variant:".data then
        let r4 := (r3.drop 8).dropWhile isWsChar
        let ds := r4.takeWhile isDigitChar
        if ds.isEmpty then false else voiceTailOk fuel (r4.drop ds.length)
      else false
    | _ => false

/-- Whole-string test of `VoiceAnnotation.regex` (`.match` with a `$`-anchored
pattern on an already stripped parameter string). -/
def voiceRegexOk (t : List Char) : Bool :=
  startsWithL t "voice:".data &&
  (let r := (t.drop 6).dropWhile isWsChar
   let nm := r.takeWhile isVoiceNameChar
   let tl := r.drop nm.length
   !nm.isEmpty && voiceTailOk tl.length tl)

/-- Position-wise attempt for `re.search(r"voice:\s*([a-zA-Z0-9_-]+)")`. -/
def tryVoiceValAt (cs : List Char) : Option (List Char) :=
  if startsWithL cs "voice:".data then
    let r := (cs.drop 6).dropWhile isWsChar
    let nm := r.takeWhile isVoiceNameChar
    if nm.isEmpty then none else some nm
  else none

/-- Position-wise attempt for `re.search(r"gender:\s*(male|female|neutral)")`. -/
def tryGenderValAt (cs : List Char) : Option (List Char) :=
  if startsWithL cs "gender:".data then
    let r := (cs.drop 7).dropWhile isWsChar
    if startsWithL r "male".data then some "male".data
    else if startsWithL r "female".data then some "female".data
    else if startsWithL r "neutral".data then some "neutral".data
    else none
  else none

/-- Position-wise attempt for `re.search(r"variant:\s*(\d+)")`. -/
def tryVariantValAt (cs : List Char) : Option (List Char) :=
  if startsWithL cs "variant:".data then
    let r := (cs.drop 8).dropWhile isWsChar
    let ds := r.takeWhile isDigitChar
    if ds.isEmpty then none else some ds
  else none

/-- The `^[a-z]{2}(-[A-Z]{2})?$` language-code shape test used by
`VoiceAnnotation.__init__`. -/
def isLangCode : List Char → Bool
  | [a, b] => isLowerChar a && isLowerChar b
  | [a, b, '-', c, d] => isLowerChar a && isLowerChar b && isUpperChar c && isUpperChar d
  | _ => false

/-- Field extraction of `VoiceAnnotation.__init__` from the matched parameter
string: the `voice:` value becomes a language when gender/variant are present
or it looks like a language code, otherwise a voice name. -/
def voiceFromParams (t : List Char) : Annot :=
  let hasGender := containsSeq t "gender:".data
  let hasVariant := containsSeq t "variant:".data
  let value? := (scanFirst tryVoiceValAt t).map Prod.snd
  let gender := (scanFirst tryGenderValAt t).map Prod.snd
  let variant := (scanFirst tryVariantValAt t).map Prod.snd
  match value? with
  | some v =>
    if hasGender || hasVariant || isLangCode v then .voice none (some v) gender variant
    else .voice (some v) none gender variant
  | none => .voice none none gender variant

/-- Recognizer of `VoiceAnnotation` (used both in the registry order and in
the pre-check of `AnnotationProcessor.result`). -/
def tryVoiceAnn (s : List Char) : Option Annot :=
  let t := stripWs s
  if voiceRegexOk t then some (voiceFromParams t) else none

/-- Format group of `SayAsAnnotation.regex`:
`\s*,\s*format:\s*["\']?([^"\']+)["\']?`, returning the capture and the rest. -/
def sayAsFormatPart (r : List Char) : Option (List Char × List Char) :=
  match (r.dropWhile isWsChar) with
  | ',' :: r1 =>
    let r2 := r1.dropWhile isWsChar
    if startsWithL r2 "format:".data then
      let r3 := (r2.drop 7).dropWhile isWsChar
      let r4 := match r3 with
        | '"' :: rr => rr
        | '\'' :: rr => rr
        | _ => r3
      let content := r4.takeWhile (fun c => c ≠ '"' && c ≠ '\'')
      if content.isEmpty then none
      else
        let r5 := r4.drop content.length
        let r6 := match r5 with
          | '"' :: rr => rr
          | '\'' :: rr => rr
          | _ => r5
        some (content, r6)
    else none
  | _ => none

/-- Detail group plus end anchor of `SayAsAnnotation.regex`:
`(?:\s*,\s*detail:\s*(\d+))?$`, tried detail-first as the engine does. -/
def sayAsDetailEnd (r : List Char) : Option (Option (List Char)) :=
  let withDetail : Option (List Char) :=
    match r.dropWhile isWsChar with
    | ',' :: r1 =>
      let r2 := r1.dropWhile isWsChar
      if startsWithL r2 "detail:".data then
        let r3 := (r2.drop 7).dropWhile isWsChar
        let ds := r3.takeWhile isDigitChar
        if ds.isEmpty || !(r3.drop ds.length).isEmpty then none else some ds
      else none
    | _ => none
  match withDetail with
  | some d => some (some d)
  | none => if r.isEmpty then some none else none

/-- Recognizer of `SayAsAnnotation`: `^as:\s*(\w+)` followed by the optional
format and detail groups and the end anchor. -/
def trySayAs (s : List Char) : Option Annot :=
  let t := stripWs s
  if startsWithL t "as:".data then
    let r := (t.drop 3).dropWhile isWsChar
    let w := r.takeWhile isWordChar
    if w.isEmpty then none
    else
      let r1 := r.drop w.length
      match sayAsFormatPart r1 with
      | some (fmt, r2) =>
        match sayAsDetailEnd r2 with
        | some d => some (.sayAs w (some (stripWs fmt)) (d.map stripWs))
        | none =>
          match sayAsDetailEnd r1 with
          | some d => some (.sayAs w none (d.map stripWs))
          | none => none
      | none =>
        match sayAsDetailEnd r1 with
        | some d => some (.sayAs w none (d.map stripWs))
        | none => none
  else none

/-- Conversion of X-SAMPA phonemes.  The mapping table file
`xsampa_to_ipa.txt` is not among the sources, so `_load_xsampa_table` builds
an empty table and the conversion is the identity. -/
def xsampaToIpa (cs : List Char) : List Char := cs

/-- Recognizer of `PhonemeAnnotation`: `^(ph|ipa):\s*(.+)$`. -/
def tryPhoneme (s : List Char) : Option Annot :=
  let t := stripWs s
  let body? : Option (Bool × List Char) :=
    if startsWithL t "ph:".data then some (true, t.drop 3)
    else if startsWithL t "ipa:".data then some (false, t.drop 4)
    else none
  match body? with
  | none => none
  | some (isXsampa, body) =>
    let r := body.dropWhile isWsChar
    if r.isEmpty || r.contains '\n' then none
    else some (.phoneme (if isXsampa then xsampaToIpa (stripWs r) else stripWs r))

/-- `ProsodyAnnotation.VOLUME_MAP`. -/
def prosodyVolumeMap (v : List Char) : Option (List Char) :=
  if v = "0".data then some "silent".data
  else if v = "1".data then some "x-soft".data
  else if v = "2".data then some "soft".data
  else if v = "3".data then some "medium".data
  else if v = "4".data then some "loud".data
  else if v = "5".data then some "x-loud".data
  else none

/-- `ProsodyAnnotation.RATE_MAP`. -/
def prosodyRateMap (v : List Char) : Option (List Char) :=
  if v = "1".data then some "x-slow".data
  else if v = "2".data then some "slow".data
  else if v = "3".data then some "medium".data
  else if v = "4".data then some "fast".data
  else if v = "5".data then some "x-fast".data
  else none

/-- `ProsodyAnnotation.PITCH_MAP`. -/
def prosodyPitchMap (v : List Char) : Option (List Char) :=
  if v = "1".data then some "x-low".data
  else if v = "2".data then some "low".data
  else if v = "3".data then some "medium".data
  else if v = "4".data then some "high".data
  else if v = "5".data then some "x-high".data
  else none

/-- Attribute alternation `([vrp]|volume|rate|pitch):` with the normalization
to the short form done in `ProsodyAnnotation.__init__`. -/
def prosodyAttrParse (t : List Char) : Option (Char × List Char) :=
  match t with
  | 'v' :: ':' :: r => some ('v', r)
  | 'r' :: ':' :: r => some ('r', r)
  | 'p' :: ':' :: r => some ('p', r)
  | _ =>
    if startsWithL t "volume:".data then some ('v', t.drop 7)
    else if startsWithL t "rate:".data then some ('r', t.drop 5)
    else if startsWithL t "pitch:".data then some ('p', t.drop 6)
    else none

/-- Recognizer of `ProsodyAnnotation`:
`^(?:vrp:\s*(\d{1,3})|([vrp]|volume|rate|pitch):\s*(.+))$` plus the value
normalization of `__init__` (numeric values via the maps, relative values
as-is, other named values as-is). -/
def tryProsodyAnn (s : List Char) : Option Annot :=
  let t := stripWs s
  let alt1 : Option Annot :=
    if startsWithL t "vrp:".data then
      let r := (t.drop 4).dropWhile isWsChar
      let ds := r.takeWhile isDigitChar
      if 1 ≤ ds.length && ds.length ≤ 3 && (r.drop ds.length).isEmpty then
        let vol := match ds.head? with
          | some c => prosodyVolumeMap [c]
          | none => none
        let rate := match ds.drop 1 |>.head? with
          | some c => prosodyRateMap [c]
          | none => none
        let pitch := match ds.drop 2 |>.head? with
          | some c => prosodyPitchMap [c]
          | none => none
        some (.prosody vol rate pitch)
      else none
    else none
  match alt1 with
  | some a => some a
  | none =>
    match prosodyAttrParse t with
    | none => none
    | some (attr, rest) =>
      let r := rest.dropWhile isWsChar
      if r.isEmpty || r.contains '\n' then none
      else
        let v := stripWs r
        let isRelative :=
          startsWithL v "+".data || startsWithL v "-".data ||
          endsWithL v "dB".data || endsWithL v "%".data
        let assigned : Option (List Char) :=
          if isRelative then some v
          else
            if attr = 'v' then some ((prosodyVolumeMap v).getD v)
            else if attr = 'r' then some ((prosodyRateMap v).getD v)
            else some ((prosodyPitchMap v).getD v)
        if attr = 'v' then some (.prosody assigned none none)
        else if attr = 'r' then some (.prosody none assigned none)
        else some (.prosody none none assigned)

/-- Recognizer of `SubstitutionAnnotation`: `^sub:\s*(.+)$`. -/
def trySubAnn (s : List Char) : Option Annot :=
  let t := stripWs s
  if startsWithL t "sub:".data then
    let r := (t.drop 4).dropWhile isWsChar
    if r.isEmpty || r.contains '\n' then none else some (.subAlias (stripWs r))
  else none

/-- `LanguageAnnotation.DEFAULTS`: two-letter codes completed to locales. -/
def langDefaults (code : List Char) : List Char :=
  if code = "en".data then "en-US".data
  else if code = "de".data then "de-DE".data
  else if code = "fr".data then "fr-FR".data
  else if code = "es".data then "es-ES".data
  else if code = "it".data then "it-IT".data
  else if code = "pt".data then "pt-PT".data
  else if code = "ru".data then "ru-RU".data
  else if code = "zh".data then "zh-CN".data
  else if code = "ja".data then "ja-JP".data
  else if code = "ko".data then "ko-KR".data
  else if code = "ar".data then "ar-SA".data
  else if code = "hi".data then "hi-IN".data
  else if code = "nl".data then "nl-NL".data
  else if code = "pl".data then "pl-PL".data
  else if code = "sv".data then "sv-SE".data
  else if code = "da".data then "da-DK".data
  else if code = "no".data then "no-NO".data
  else if code = "fi".data then "fi-FI".data
  else code

/-- Recognizer of `LanguageAnnotation`:
`^(?:lang:\s*([a-z]{2}(?:-[A-Z]{2})?)|([a-z]{2}(?:-[A-Z]{2})?))$`. -/
def tryLangAnn (s : List Char) : Option Annot :=
  let t := stripWs s
  if startsWithL t "lang:".data && isLangCode ((t.drop 5).dropWhile isWsChar) then
    some (.language (langDefaults ((t.drop 5).dropWhile isWsChar)))
  else if isLangCode t then some (.language (langDefaults t))
  else none

/-- The ordered recognizer list of `get_annotation` (audio first, bare
language codes last). -/
def annotTryers : List (List Char → Option Annot) :=
  [tryAudio, tryExt, tryVoiceAnn, trySayAs, tryPhoneme, tryProsodyAnn, trySubAnn, tryLangAnn]

/-- Loop body of `get_annotation`: first successful recognizer wins. -/
def firstAnnot (s : List Char) : List (List Char → Option Annot) → Option Annot
  | [] => none
  | f :: fs =>
    match f s with
    | some a => some a
    | none => firstAnnot s fs

/-- `get_annotation`: resolve one comma-separated parameter string. -/
def getAnnot (s : List Char) : Option Annot :=
  firstAnnot s annotTryers

/-- Build one `key="value"` XML attribute. -/
def attrKV (k v : List Char) : List Char :=
  k ++ "=\"".data ++ v ++ "\"".data

/-- Python truthiness for optional strings: `None` and `""` are falsy. -/
def optTruthy : Option (List Char) → Option (List Char)
  | some [] => none
  | x => x

/-- One optional attribute: emitted only when the value is truthy
(`if self.x: attrs.append(...)`). -/
def optAttr (name : List Char) (v : Option (List Char)) : List (List Char) :=
  match optTruthy v with
  | some x => [attrKV name x]
  | none => []

/-- `wrap` of each annotation class: the SSML element produced around `text`. -/
def annotWrap (a : Annot) (text : List Char) : List Char :=
  match a with
  | .language l =>
    "<lang xml:lang=\"".data ++ l ++ "\">".data ++ text ++ "</lang>".data
  | .phoneme p =>
    "<phoneme alphabet=\"ipa\" ph=\"".data ++ p ++ "\">".data ++ text ++ "</phoneme>".data
  | .subAlias al =>
    "<sub alias=\"".data ++ al ++ "\">".data ++ text ++ "</sub>".data
  | .sayAs ia fmt det =>
    let attrs := [attrKV "interpret-as".data ia] ++
      optAttr "format".data fmt ++ optAttr "detail".data det
    "<say-as ".data ++ joinSep " ".data attrs ++ ">".data ++ text ++ "</say-as>".data
  | .prosody v r p =>
    let attrs := optAttr "volume".data v ++ optAttr "rate".data r ++ optAttr "pitch".data p
    if attrs.isEmpty then text
    else "<prosody ".data ++ joinSep " ".data attrs ++ ">".data ++ text ++ "</prosody>".data
  | .voice n l g vr =>
    let attrs :=
      match optTruthy n with
      | some nm => [attrKV "name".data nm]
      | none => optAttr "language".data l ++ optAttr "gender".data g ++ optAttr "variant".data vr
    "<voice ".data ++ joinSep " ".data attrs ++ ">".data ++ text ++ "</voice>".data
  | .ext name =>
    if name = "whisper".data then
      "<amazon:effect name=\"whispered\">".data ++ text ++ "</amazon:effect>".data
    else if name = "audio".data then
      "<audio src=\"".data ++ text ++ "\"/>".data
    else text
  | .audio url cb ce sp rp lv alt =>
    let attrs := [attrKV "src".data url] ++
      optAttr "clipBegin".data cb ++ optAttr "clipEnd".data ce ++ optAttr "speed".data sp ++
      optAttr "repeatCount".data rp ++ optAttr "soundLevel".data lv
    let desc := if text.isEmpty then [] else "<desc>".data ++ text ++ "</desc>".data
    "<audio ".data ++ joinSep " ".data attrs ++ ">".data ++ desc ++ alt ++ "</audio>".data

/-- First-some choice on optional strings. -/
def orElseOpt (x y : Option (List Char)) : Option (List Char) :=
  match x with
  | some v => some v
  | none => y

/-- `combine` of a duplicate annotation of the same variant: the default of
`BaseAnnotation.combine` keeps the first instance unchanged; only
`ProsodyAnnotation.combine` overrides it, filling in fields that are `None`
in the first instance from the duplicate. -/
def annotCombine (a b : Annot) : Annot :=
  match a, b with
  | .prosody v r p, .prosody v' r' p' =>
    .prosody (orElseOpt v v') (orElseOpt r r') (orElseOpt p p')
  | _, _ => a

/-- `TTSCapabilities`: the boolean feature flags plus named extension flags. -/
structure Caps where
  emphasis : Bool := true
  breakTags : Bool := true
  paragraph : Bool := true
  language : Bool := true
  phoneme : Bool := true
  substitution : Bool := true
  prosody : Bool := true
  prosodyVolume : Bool := true
  prosodyRate : Bool := true
  prosodyPitch : Bool := true
  sayAs : Bool := true
  audioTag : Bool := true
  markTag : Bool := true
  sentenceTags : Bool := true
  headingEmphasis : Bool := true
  extensions : List (List Char × Bool) := []
deriving DecidableEq

/-- `TTSCapabilities.__init__`: the three prosody sub-flags are and-ed with
the main prosody flag. -/
def capsInit (c : Caps) : Caps :=
  { c with
    prosodyVolume := c.prosodyVolume && c.prosody
    prosodyRate := c.prosodyRate && c.prosody
    prosodyPitch := c.prosodyPitch && c.prosody }

/-- `TTSCapabilities.supports_extension`: look up a named extension flag,
defaulting to unsupported. -/
def capsSupportsExt (c : Caps) (name : List Char) : Bool :=
  match c.extensions.find? (fun p => p.1 = name) with
  | some (_, b) => b
  | none => false

/-- `AnnotationProcessor._is_annotation_supported`: the isinstance chain over
annotation classes.  `TTSCapabilities` has no `voice` attribute, so the
`getattr(capabilities, "voice", True)` lookup is always true. -/
def isAnnotSupported (caps? : Option Caps) (a : Annot) : Bool :=
  match caps? with
  | none => true
  | some caps =>
    match a with
    | .language _ => caps.language
    | .phoneme _ => caps.phoneme
    | .subAlias _ => caps.substitution
    | .sayAs .. => caps.sayAs
    | .audio .. => caps.audioTag
    | .voice .. => true
    | .prosody .. => caps.prosody
    | .ext name => capsSupportsExt caps name

/-- Replace the first annotation of the same class by its combination with
the duplicate (`existing.combine(ann)` mutates `existing` in place). -/
def replaceFirstSame : List Annot → Annot → List Annot
  | [], _ => []
  | a :: rest, ann =>
    if annKind a = annKind ann then annotCombine a ann :: rest
    else a :: replaceFirstSame rest ann

/-- One step of the duplicate-merging loop in `AnnotationProcessor.result`:
combine into an existing annotation of the same class, else append. -/
def insertAnnot (acc : List Annot) (ann : Annot) : List Annot :=
  if acc.any (fun a => annKind a = annKind ann) then replaceFirstSame acc ann
  else acc ++ [ann]

/-- The full resolution loop of `AnnotationProcessor.result`: resolve each
comma-separated part, drop unresolved and unsupported ones, merge
duplicates. -/
def buildAnnots (caps? : Option Caps) : List (List Char) → List Annot → List Annot
  | [], acc => acc
  | part :: rest, acc =>
    match getAnnot part with
    | none => buildAnnots caps? rest acc
    | some ann =>
      if isAnnotSupported caps? ann then buildAnnots caps? rest (insertAnnot acc ann)
      else buildAnnots caps? rest acc

/-- `AnnotationProcessor.result`: voice annotations are matched whole before
comma-splitting; otherwise each part is resolved independently, duplicates
are merged, and the text is wrapped innermost-first in resolution order. -/
def annotResult (caps? : Option Caps) (text params : List Char) : List Char :=
  let stripped := stripWs params
  if voiceRegexOk stripped then
    let va := voiceFromParams stripped
    if isAnnotSupported caps? va then annotWrap va text else text
  else
    let parts := (splitOnChar ',' params).map stripWs
    let anns := buildAnnots caps? parts []
    anns.foldl (fun acc a => annotWrap a acc) text

/-- Generic leftmost `re.search` loop that tracks the previous character for
lookbehinds; returns the consumed prefix and the hit. -/
def scanPrev {α : Type} (tryAt : Option Char → List Char → Option α) :
    Option Char → List Char → Option (List Char × α)
  | _, [] => none
  | prev, c :: rest =>
    match tryAt prev (c :: rest) with
    | some a => some ([], a)
    | none =>
      match scanPrev tryAt (some c) rest with
      | some (pre, a) => some (c :: pre, a)
      | none => none

/-- Emphasis level of `EmphasisProcessor` (which alternation branch matched). -/
inductive EmKind where
  | strong
  | moderate
  | reduced
deriving DecidableEq

/-- Anchored attempt of the `EmphasisProcessor` pattern
`\*\*([^\*]+)\*\*|\*([^\*]+)\*|(?<!_)_(?!_)([^_]+?)(?<!_)_(?!_)` at one
position (the character classes make greedy/lazy choices deterministic). -/
def emphasisTryAt (prev : Option Char) : List Char → Option (EmKind × List Char × List Char)
  | '*' :: rest1 =>
    if startsWithL rest1 "*".data then
      let rest := rest1.drop 1
      let content := rest.takeWhile (fun c => c ≠ '*')
      if !content.isEmpty && startsWithL (rest.drop content.length) "**".data then
        some (.strong, content, rest.drop (content.length + 2))
      else none
    else
      let content := rest1.takeWhile (fun c => c ≠ '*')
      if !content.isEmpty && startsWithL (rest1.drop content.length) "*".data then
        some (.moderate, content, rest1.drop (content.length + 1))
      else none
  | '_' :: rest =>
    if prev = some '_' then none
    else
      let content := rest.takeWhile (fun c => c ≠ '_')
      if content.isEmpty then none
      else
        match rest.drop content.length with
        | '_' :: after =>
          if startsWithL after "_".data then none else some (.reduced, content, after)
        | _ => none
  | _ => none

/-- Leftmost emphasis match: `(pre, (kind, content, rest))`. -/
def emphasisSearch (text : List Char) : Option (List Char × (EmKind × List Char × List Char)) :=
  scanPrev emphasisTryAt none text

/-- `EmphasisProcessor.result`. -/
def emphasisResult (k : EmKind) (content : List Char) : List Char :=
  match k with
  | .strong => "<emphasis level=\"strong\">".data ++ content ++ "</emphasis>".data
  | .moderate => "<emphasis>".data ++ content ++ "</emphasis>".data
  | .reduced => "<emphasis level=\"reduced\">".data ++ content ++ "</emphasis>".data

/-- `EmphasisProcessor.substitute` via the base class. -/
def emphasisSubst (text : List Char) : List Char :=
  match emphasisSearch text with
  | none => text
  | some (pre, (k, content, rest)) => pre ++ emphasisResult k content ++ rest

/-- `EmphasisProcessor.strip_ssmd` via the base class (`text` = the group). -/
def emphasisStrip (text : List Char) : List Char :=
  match emphasisSearch text with
  | none => text
  | some (pre, (_, content, rest)) => pre ++ content ++ rest

/-- Anchored attempt of the `AnnotationProcessor` pattern
`\[([^\]]+)\]\(([^\)]+)\)`: bracket text, then parenthesised parameters. -/
def annTryAt : List Char → Option (List Char × List Char × List Char)
  | '[' :: rest =>
    let txt := rest.takeWhile (fun c => c ≠ ']')
    if txt.isEmpty then none
    else
      match rest.drop txt.length with
      | ']' :: '(' :: r2 =>
        let ps := r2.takeWhile (fun c => c ≠ ')')
        if ps.isEmpty then none
        else
          match r2.drop ps.length with
          | ')' :: r3 => some (txt, ps, r3)
          | _ => none
      | _ => none
  | _ => none

/-- Leftmost annotation-bracket match. -/
def annSearch (text : List Char) : Option (List Char × (List Char × List Char × List Char)) :=
  scanFirst annTryAt text

/-- `AnnotationProcessor.substitute` via the base class. -/
def annSubst (caps? : Option Caps) (text : List Char) : List Char :=
  match annSearch text with
  | none => text
  | some (pre, (txt, params, rest)) => pre ++ annotResult caps? txt params ++ rest

/-- `AnnotationProcessor.strip_ssmd` (its `text` override keeps group 1). -/
def annStrip (text : List Char) : List Char :=
  match annSearch text with
  | none => text
  | some (pre, (txt, _, rest)) => pre ++ txt ++ rest

/-- Anchored attempt of the `MarkProcessor` pattern `@(\w+)`. -/
def markTryAt : List Char → Option (List Char × List Char)
  | '@' :: rest =>
    let w := rest.takeWhile isWordChar
    if w.isEmpty then none else some (w, rest.drop w.length)
  | _ => none

/-- Leftmost mark match. -/
def markSearch (text : List Char) : Option (List Char × (List Char × List Char)) :=
  scanFirst markTryAt text

/-- Whitespace absorption of `BaseProcessor.strip_ssmd` for no-content
markers: remove one adjacent space. -/
def noContentGlue (pre post : List Char) : List Char :=
  if !pre.isEmpty && endsWithL pre " ".data then pre.dropLast ++ post
  else if !post.isEmpty && startsWithL post " ".data then pre ++ post.drop 1
  else pre ++ post

/-- `MarkProcessor.substitute` via the base class. -/
def markSubst (text : List Char) : List Char :=
  match markSearch text with
  | none => text
  | some (pre, (w, rest)) => pre ++ "<mark name=\"".data ++ w ++ "\"/>".data ++ rest

/-- `MarkProcessor.strip_ssmd`: marks strip to nothing and absorb a space. -/
def markStrip (text : List Char) : List Char :=
  match markSearch text with
  | none => text
  | some (pre, (_, rest)) => noContentGlue pre rest

/-- Prosody shorthand markers in the alternation order of
`ProsodyProcessor.regex` (longer markers first; `<`/`>` are matched in their
XML-escaped form because the processor runs after escaping). -/
def prosodyMarkers : List (List Char) :=
  ["~~".data, "--".data, "++".data, "-".data, "+".data,
   "&lt;&lt;".data, "&lt;".data, "&gt;&gt;".data, "&gt;".data,
   "__".data, "^^".data, "_".data, "^".data]

/-- Content class `[^~\-+<>_^]` of the prosody shorthand pattern. -/
def isProsodyContentChar (c : Char) : Bool :=
  !(c = '~' || c = '-' || c = '+' || c = '<' || c = '>' || c = '_' || c = '^')

/-- Trailing lookahead `(?![a-zA-Z0-9])` after the closing marker. -/
def lookaheadOk : List Char → Bool
  | [] => true
  | c :: _ => !isAlnumChar c

/-- Lazy content scan after an opening marker: consume at least one
content-class character, stopping at the first closing occurrence of the
marker whose lookahead holds. -/
def prosodyAfterOpen (marker : List Char) (acc : List Char) : List Char → Option (List Char × List Char)
  | [] => none
  | c :: rest =>
    if !isProsodyContentChar c then none
    else if startsWithL rest marker && lookaheadOk (rest.drop marker.length) then
      some (acc ++ [c], rest.drop marker.length)
    else prosodyAfterOpen marker (acc ++ [c]) rest

/-- Try each marker in alternation order at this position. -/
def prosodyMarkerTry (cs : List Char) : List (List Char) → Option (List Char × List Char × List Char)
  | [] => none
  | m :: ms =>
    if startsWithL cs m then
      match prosodyAfterOpen m [] (cs.drop m.length) with
      | some (content, rest) => some (m, content, rest)
      | none => prosodyMarkerTry cs ms
    else prosodyMarkerTry cs ms

/-- Anchored attempt of the prosody shorthand pattern (with the
`(?<![a-zA-Z0-9])` lookbehind). -/
def prosodyTryAt : Option Char → List Char → Option (List Char × List Char × List Char)
  | some p, cs => if isAlnumChar p then none else prosodyMarkerTry cs prosodyMarkers
  | none, cs => prosodyMarkerTry cs prosodyMarkers

/-- Leftmost prosody shorthand match: `(pre, (marker, content, rest))`. -/
def prosodySearch (text : List Char) : Option (List Char × (List Char × List Char × List Char)) :=
  scanPrev prosodyTryAt none text

/-- `ProsodyProcessor.VOLUME_MAP`. -/
def prosodyShortVolume (m : List Char) : Option (List Char) :=
  if m = "~".data then some "silent".data
  else if m = "--".data then some "x-soft".data
  else if m = "-".data then some "soft".data
  else if m = "+".data then some "loud".data
  else if m = "++".data then some "x-loud".data
  else none

/-- `ProsodyProcessor.RATE_MAP` (keys are the XML-escaped markers). -/
def prosodyShortRate (m : List Char) : Option (List Char) :=
  if m = "&lt;&lt;".data then some "x-slow".data
  else if m = "&lt;".data then some "slow".data
  else if m = "&gt;".data then some "fast".data
  else if m = "&gt;&gt;".data then some "x-fast".data
  else none

/-- `ProsodyProcessor.PITCH_MAP`. -/
def prosodyShortPitch (m : List Char) : Option (List Char) :=
  if m = "__".data then some "x-low".data
  else if m = "_".data then some "low".data
  else if m = "^".data then some "high".data
  else if m = "^^".data then some "x-high".data
  else none

/-- `ProsodyProcessor.result`: volume, then rate, then pitch; an unmapped
marker (only `~~`) returns the match unchanged. -/
def prosodyResult (marker content : List Char) : List Char :=
  match prosodyShortVolume marker with
  | some v => "<prosody volume=\"".data ++ v ++ "\">".data ++ content ++ "</prosody>".data
  | none =>
    match prosodyShortRate marker with
    | some v => "<prosody rate=\"".data ++ v ++ "\">".data ++ content ++ "</prosody>".data
    | none =>
      match prosodyShortPitch marker with
      | some v => "<prosody pitch=\"".data ++ v ++ "\">".data ++ content ++ "</prosody>".data
      | none => marker ++ content ++ marker

/-- Suffix of `cs` starting at the last occurrence of `c`
(Python `cs[cs.rfind(c):]`), or none when absent. -/
def suffixFromLast (c : Char) (cs : List Char) : Option (List Char) :=
  let tl := cs.reverse.takeWhile (fun x => x ≠ c)
  if tl.length = cs.length then none else some (c :: tl.reverse)

/-- The backward quote-toggling scan of `ProsodyProcessor.substitute`: walk
the text from the last `<`, entering an attribute at `="` and leaving it at
the next `"`. -/
def attrScan : List Char → Bool → Bool
  | [], inA => inA
  | '=' :: '"' :: rest, _ => attrScan rest true
  | '"' :: rest, _ => attrScan rest false
  | _ :: rest, inA => attrScan rest inA

/-- Is the match start inside an already-emitted XML attribute value? -/
def prosodyInAttr (pre : List Char) : Bool :=
  match suffixFromLast '<' pre with
  | none => false
  | some between => attrScan between false

/-- `ProsodyProcessor.substitute` with fuel: replace the first shorthand
match unless it sits inside an XML attribute value, in which case keep the
text up to the match end and continue on the remainder. -/
def prosodySubstGo : Nat → List Char → List Char
  | 0, text => text
  | fuel + 1, text =>
    match prosodySearch text with
    | none => text
    | some (pre, (marker, content, post)) =>
      if prosodyInAttr pre then
        let matchEnd := pre.length + marker.length + content.length + marker.length
        text.take matchEnd ++ prosodySubstGo fuel (text.drop matchEnd)
      else pre ++ prosodyResult marker content ++ post

/-- `ProsodyProcessor.substitute` (fuel `text.length + 1` always suffices
since every match spans at least three characters). -/
def prosodySubst (text : List Char) : List Char :=
  prosodySubstGo (text.length + 1) text

/-- `ProsodyProcessor.strip_ssmd` is the base-class version: no attribute
check, the match is replaced by its content group. -/
def prosodyStrip (text : List Char) : List Char :=
  match prosodySearch text with
  | none => text
  | some (pre, (_, content, rest)) => pre ++ content ++ rest

/-- One effect in a heading-level configuration (`heading_levels` values). -/
inductive HeadingEffect where
  | emphasisFx (level : List Char)
  | pauseFx (time : List Char)
  | prosodyFx (attrs : List (List Char × List Char))
deriving DecidableEq

/-- `HeadingProcessor.DEFAULT_LEVELS`. -/
def defaultHeadingLevels : List (Nat × List HeadingEffect) :=
  [(1, [.emphasisFx "strong".data, .pauseFx "100ms".data]),
   (2, [.emphasisFx "moderate".data, .pauseFx "75ms".data]),
   (3, [.emphasisFx "reduced".data, .pauseFx "50ms".data])]

/-- Parse `\s*(.+)` after the hashes: the greedy whitespace run backs off
just enough for `.+` to start on a non-newline character. -/
def headingTailParse (rest : List Char) : Option (List Char × List Char × List Char) :=
  let w := rest.takeWhile isWsChar
  let r2 := rest.drop w.length
  match r2 with
  | _ :: _ =>
    let content := r2.takeWhile (fun c => c ≠ '\n')
    some (w, content, r2.drop content.length)
  | [] =>
    -- rest is all whitespace: `.+` matches the last character that is not a
    -- newline (everything after it is newlines, where `.` cannot match)
    let revRest := rest.reverse
    let tn := revRest.takeWhile (fun c => c = '\n')
    match revRest.drop tn.length with
    | c :: back => some (back.reverse, [c], tn.reverse)
    | [] => none

/-- Backtracking over the greedy `(#+)`: try the longest hash run first. -/
def headingHashTry (r : List Char) : Nat → Option (Nat × List Char × List Char × List Char)
  | 0 => none
  | h + 1 =>
    match headingTailParse (r.drop (h + 1)) with
    | some (w2, content, after) => some (h + 1, w2, content, after)
    | none => headingHashTry r h

/-- Anchored attempt of `^\s*(#+)\s*(.+)` (MULTILINE) at a line start:
leading whitespace (which may span newlines), hashes, then the tail. -/
def headingTryAt (cs : List Char) : Option (List Char × Nat × List Char × List Char × List Char) :=
  let w1 := cs.takeWhile isWsChar
  let r := cs.drop w1.length
  let hs := r.takeWhile (fun c => c = '#')
  if hs.isEmpty then none
  else
    match headingHashTry r hs.length with
    | some (h, w2, content, after) => some (w1, h, w2, content, after)
    | none => none

/-- Leftmost heading match over line starts:
`(pre, wsLead, level, wsMid, content, after)`. -/
def headingSearchGo (acc : List Char) (atLineStart : Bool) :
    List Char → Option (List Char × List Char × Nat × List Char × List Char × List Char)
  | [] => none
  | c :: rest =>
    match (if atLineStart then headingTryAt (c :: rest) else none) with
    | some (w1, h, w2, content, after) => some (acc.reverse, w1, h, w2, content, after)
    | none => headingSearchGo (c :: acc) (c = '\n') rest

/-- Leftmost heading match (`^` holds at the string start and after `\n`). -/
def headingSearch (text : List Char) :
    Option (List Char × List Char × Nat × List Char × List Char × List Char) :=
  headingSearchGo [] true text

/-- One heading effect applied to the accumulated text
(`HeadingProcessor.result` loop body). -/
def headingFxApply (acc : List Char) (fx : HeadingEffect) : List Char :=
  match fx with
  | .emphasisFx lv =>
    "<emphasis level=\"".data ++ lv ++ "\">".data ++ acc ++ "</emphasis>".data
  | .pauseFx t => acc ++ " <break time=\"".data ++ t ++ "\"/>".data
  | .prosodyFx attrs =>
    let a := joinSep " ".data (attrs.map (fun p => attrKV p.1 p.2))
    "<prosody ".data ++ a ++ ">".data ++ acc ++ "</prosody>".data

/-- `HeadingProcessor.result`: apply the configured effects of the level in
sequence; a level with no configuration returns the match unchanged. -/
def headingResult (levels : List (Nat × List HeadingEffect)) (h : Nat)
    (g0 content : List Char) : List Char :=
  match levels.find? (fun p => p.1 = h) with
  | none => g0
  | some (_, effects) => effects.foldl headingFxApply content

/-- `HeadingProcessor.substitute` via the base class. -/
def headingSubst (levels : List (Nat × List HeadingEffect)) (text : List Char) : List Char :=
  match headingSearch text with
  | none => text
  | some (pre, w1, h, w2, content, after) =>
    let g0 := w1 ++ List.replicate h '#' ++ w2 ++ content
    pre ++ headingResult levels h g0 content ++ after

/-- `HeadingProcessor.strip_ssmd`: keep only the heading text (group 2). -/
def headingStrip (text : List Char) : List Char :=
  match headingSearch text with
  | none => text
  | some (pre, _, _, _, content, after) => pre ++ content ++ after

/-- Replace every run of two or more newlines (`\n\n+`), scanning without
rescanning replacements; the flag records that a run is being consumed. -/
def paraSubGo (repl : List Char) : Bool → List Char → List Char
  | _, [] => []
  | true, '\n' :: rest => paraSubGo repl true rest
  | true, c :: rest => c :: paraSubGo repl false rest
  | false, '\n' :: '\n' :: rest => repl ++ paraSubGo repl true rest
  | false, c :: rest => c :: paraSubGo repl false rest

/-- `ParagraphProcessor.substitute` (whole-text, single pass): replace
paragraph breaks by `</p><p>` and wrap the result in `<p>…</p>`. -/
def paragraphSubst (text : List Char) : List Char :=
  let r := paraSubGo "</p><p>".data false text
  let r1 := if !r.isEmpty && !startsWithL r "<p>".data then "<p>".data ++ r else r
  if !r1.isEmpty && !endsWithL r1 "</p>".data then r1 ++ "</p>".data else r1

/-- `ParagraphProcessor.strip_ssmd`: normalize runs of newlines to exactly
two. -/
def paragraphStrip (text : List Char) : List Char :=
  paraSubGo "\n\n".data false text

/-- Anchored attempt of the `SentenceProcessor` pattern
`<p>([^<>]+)(?:\n([^<>\n]+))*</p>`: the character classes force the whole
block between `<p>` and the next tag character. -/
def sentenceTryAt : List Char → Option (List Char × List Char)
  | '<' :: 'p' :: '>' :: r =>
    let content := r.takeWhile (fun c => c ≠ '<' && c ≠ '>')
    if content.isEmpty then none
    else if startsWithL (r.drop content.length) "</p>".data then
      some (content, r.drop (content.length + 4))
    else none
  | _ => none

/-- Leftmost sentence-block match. -/
def sentenceSearch (text : List Char) : Option (List Char × (List Char × List Char)) :=
  scanFirst sentenceTryAt text

/-- `SentenceProcessor.result`: wrap each nonblank line in `<s>` tags (the
processor checks its enabled flag again inside `result`). -/
def sentenceResult (enabled : Bool) (content : List Char) : List Char :=
  if !enabled then "<p>".data ++ content ++ "</p>".data
  else
    let lines := splitOnChar '\n' content
    let sentences := lines.filterMap
      (fun l => let s := stripWs l; if s.isEmpty then none else some ("<s>".data ++ s ++ "</s>".data))
    "<p>".data ++ joinSep " ".data sentences ++ "</p>".data

/-- `SentenceProcessor.substitute` via the base class. -/
def sentenceSubst (enabled : Bool) (text : List Char) : List Char :=
  match sentenceSearch text with
  | none => text
  | some (pre, (content, rest)) => pre ++ sentenceResult enabled content ++ rest

/-- `SentenceProcessor.strip_ssmd`: its `text` override returns the whole
match, so stripping never changes the text. -/
def sentenceStrip (text : List Char) : List Char :=
  match sentenceSearch text with
  | none => text
  | some (pre, (content, rest)) => pre ++ "<p>".data ++ content ++ "</p>".data ++ rest

/-- Unit alternation `(?:s|ms)` after the digits of a break time (`s` is
tried first). -/
def breakUnitParse (ds : List Char) : List Char → Option (List Char × List Char)
  | 's' :: r2 => some (ds ++ ['s'], r2)
  | 'm' :: 's' :: r2 => some (ds ++ "ms".data, r2)
  | _ => none

/-- Strength-letter alternative `[nwcsp]` of the break pattern. -/
def breakLetterParse : List Char → Option (List Char × List Char)
  | c :: r2 =>
    if c = 'n' || c = 'w' || c = 'c' || c = 's' || c = 'p' then some ([c], r2) else none
  | [] => none

/-- Modifier group `(\d+(?:s|ms)|[nwcsp])` after the three dots. -/
def breakModParse (r : List Char) : Option (List Char × List Char) :=
  let ds := r.takeWhile isDigitChar
  if !ds.isEmpty then breakUnitParse ds (r.drop ds.length)
  else breakLetterParse r

/-- Anchored attempt of the `BreakProcessor` pattern
`\.\.\.(\d+(?:s|ms)|[nwcsp])`. -/
def breakTryAt : List Char → Option (List Char × List Char)
  | '.' :: '.' :: '.' :: r => breakModParse r
  | _ => none

/-- Leftmost break match: `(pre, (modifier, rest))`. -/
def breakSearch (text : List Char) : Option (List Char × (List Char × List Char)) :=
  scanFirst breakTryAt text

/-- `BreakProcessor.result`: strength letters, explicit time units, and the
final fallback appending `ms` to a unitless number. -/
def breakResult (m : List Char) : List Char :=
  if m = "n".data then "<break strength=\"none\"/>".data
  else if m = "w".data then "<break strength=\"x-weak\"/>".data
  else if m = "c".data then "<break strength=\"medium\"/>".data
  else if m = "s".data then "<break strength=\"strong\"/>".data
  else if m = "p".data then "<break strength=\"x-strong\"/>".data
  else if endsWithL m "s".data || endsWithL m "ms".data then
    "<break time=\"".data ++ m ++ "\"/>".data
  else "<break time=\"".data ++ m ++ "ms".data ++ "\"/>".data

/-- Does `BreakProcessor.result` reach its final fallback branch (the one
appending `ms`) on this captured modifier? -/
def breakFallbackUsed (m : List Char) : Bool :=
  !(m = "n".data || m = "w".data || m = "c".data || m = "s".data || m = "p".data ||
    endsWithL m "s".data || endsWithL m "ms".data)

/-- `BreakProcessor.substitute` via the base class. -/
def breakSubst (text : List Char) : List Char :=
  match breakSearch text with
  | none => text
  | some (pre, (m, rest)) => pre ++ breakResult m ++ rest

/-- `BreakProcessor.strip_ssmd`: breaks strip to nothing and absorb a space. -/
def breakStrip (text : List Char) : List Char :=
  match breakSearch text with
  | none => text
  | some (pre, (_, rest)) => noContentGlue pre rest

/-- Converter configuration (the flat option dictionary).  `pretty_print` is
not modelled: every configuration in scope leaves it at its default `False`,
and the claims never exercise the pretty printer. -/
structure Config where
  skip : List (List Char) := []
  outputSpeakTag : Bool := true
  autoSentenceTags : Bool := false
  headingLevels : List (Nat × List HeadingEffect) := defaultHeadingLevels
  capabilities : Option Caps := none

/-- One rewrite rule of the pipeline, with the behaviours
`_process_recursively` consults: `matches`, `substitute`, `strip_ssmd`, and
the `_process_all_at_once` marker. -/
structure Proc where
  name : List Char
  allAtOnce : Bool := false
  matchesF : List Char → Bool
  substF : List Char → List Char
  stripF : List Char → List Char

/-- The eight processors of `get_all_processors`, in pipeline order. -/
def allProcs (cfg : Config) : List Proc :=
  [{ name := "emphasis".data
     matchesF := fun t => (emphasisSearch t).isSome
     substF := emphasisSubst
     stripF := emphasisStrip },
   { name := "annotation".data
     matchesF := fun t => (annSearch t).isSome
     substF := annSubst cfg.capabilities
     stripF := annStrip },
   { name := "mark".data
     matchesF := fun t => (markSearch t).isSome
     substF := markSubst
     stripF := markStrip },
   { name := "prosody".data
     matchesF := fun t => (prosodySearch t).isSome
     substF := prosodySubst
     stripF := prosodyStrip },
   { name := "heading".data
     matchesF := fun t => (headingSearch t).isSome
     substF := headingSubst cfg.headingLevels
     stripF := headingStrip },
   { name := "paragraph".data
     allAtOnce := true
     matchesF := fun t => containsSeq t "\n\n".data
     substF := paragraphSubst
     stripF := paragraphStrip },
   { name := "sentence".data
     matchesF := fun t => cfg.autoSentenceTags && (sentenceSearch t).isSome
     substF := sentenceSubst cfg.autoSentenceTags
     stripF := sentenceStrip },
   { name := "break".data
     matchesF := fun t => (breakSearch t).isSome
     substF := breakSubst
     stripF := breakStrip }]

/-- `Converter._init_processors`: drop the processors named in `skip`. -/
def pipelineProcs (cfg : Config) : List Proc :=
  (allProcs cfg).filter (fun p => !(cfg.skip.contains p.name))

/-- `Converter._process_recursively` with a fuel bound on the recursion
depth: whole-text processors run once; otherwise the first match is replaced
and the loop recurses only when the replacement changed the text.  `none`
means the fuel was insufficient for the recursion the Python code performs. -/
def processRec (p : Proc) (stripMode : Bool) : Nat → List Char → Option (List Char)
  | 0, _ => none
  | fuel + 1, text =>
    if p.allAtOnce then some (if stripMode then p.stripF text else p.substF text)
    else if p.matchesF text then
      let r := if stripMode then p.stripF text else p.substF text
      if r = text then some text else processRec p stripMode fuel r
    else some text

/-- Run one processor to its fixed point, with the length-based fuel that
suffices for every processor of the default pipeline. -/
def runProc (stripMode : Bool) (text : List Char) (p : Proc) : Option (List Char) :=
  processRec p stripMode (text.length + 1) text

/-- `Converter.convert`: escape, run every processor recursively, unescape,
and wrap in `<speak>` when configured. -/
def convertSSMD (cfg : Config) (input : List Char) : Option (List Char) := do
  let t0 := escapeXml input
  let t1 ← (pipelineProcs cfg).foldlM (fun t p => runProc false t p) t0
  let t2 := unescapeXml t1
  if cfg.outputSpeakTag then
    return "<speak>".data ++ t2 ++ "</speak>".data
  else
    return t2

/-- `Converter.strip`: escape, run every processor recursively in strip
mode, unescape. -/
def stripSSMD (cfg : Config) (input : List Char) : Option (List Char) := do
  let t0 := escapeXml input
  let t1 ← (pipelineProcs cfg).foldlM (fun t p => runProc true t p) t0
  return unescapeXml t1

/-- `TTSCapabilities.to_config`: the skip list derived from disabled
features. -/
def capsToSkip (c : Caps) : List (List Char) :=
  (if !c.emphasis then ["emphasis".data] else []) ++
  (if !c.breakTags then ["break".data] else []) ++
  (if !c.paragraph then ["paragraph".data] else []) ++
  (if !c.markTag then ["mark".data] else []) ++
  (if !c.prosody then ["prosody".data] else [])

/-- `SSMD.__init__` with a capabilities object and otherwise empty user
configuration: merge the derived skip list, store the capabilities, and empty
the heading levels when heading emphasis is unsupported. -/
def configWithCaps (c : Caps) : Config :=
  { skip := capsToSkip c
    capabilities := some c
    headingLevels := if !c.headingEmphasis then [] else defaultHeadingLevels }

/-- The default configuration (`SSMD()` with no arguments). -/
def defaultConfig : Config := {}

/-- Modelled from the spec: the implementation of `parse_spans` is not among
the sources (only its result types in `ssmd/spans.py` and its tests are).
§4.5 describes the Span/Offset Tracker as processing annotations in source
order over a tokenized view of the input — markup-free text runs
interleaved with annotated runs whose markup has been stripped — while
accumulating a running shift so that each span indexes the *output* text.
A token is one such run. -/
inductive SpanTok where
  | plain (txt : List Char)
  | ann (txt : List Char) (attrs : List (List Char × List Char))
deriving DecidableEq

/-- `AnnotationSpan` of `ssmd/spans.py`: offsets into the clean text plus a
flat attribute map. -/
structure AnnSpan where
  charStart : Nat
  charEnd : Nat
  attrs : List (List Char × List Char)
deriving DecidableEq

/-- Modelled from the spec: the accumulation loop of the Span/Offset
Tracker.  `offset` is the length of clean text already emitted; an annotated
run contributes its stripped text and records the output-relative range. -/
def parseSpansGo (offset : Nat) : List SpanTok → List Char × List AnnSpan
  | [] => ([], [])
  | .plain t :: rest =>
    (t ++ (parseSpansGo (offset + t.length) rest).1,
      (parseSpansGo (offset + t.length) rest).2)
  | .ann t attrs :: rest =>
    (t ++ (parseSpansGo (offset + t.length) rest).1,
      ⟨offset, offset + t.length, attrs⟩ :: (parseSpansGo (offset + t.length) rest).2)

/-- Modelled from the spec: `parse_spans` produces the clean text and the
annotation spans. -/
def parseSpansModel (toks : List SpanTok) : List Char × List AnnSpan :=
  parseSpansGo 0 toks

/-- The annotated substrings of the input, with markup removed, in source
order. -/
def annTexts (toks : List SpanTok) : List (List Char) :=
  toks.filterMap (fun t => match t with | .ann txt _ => some txt | .plain _ => none)

/-- Python slicing `cs[a:b]` for `0 ≤ a ≤ b ≤ len cs`. -/
def sliceL (cs : List Char) (a b : Nat) : List Char :=
  (cs.drop a).take (b - a)

/-! ## Termination measures

Each recursive processor strictly decreases a count of its own marker
characters on every substitution pass, which bounds the number of passes of
`_process_recursively` by the length of the text. -/

/-- Number of emphasis marker characters (`*` and `_`). -/
def countEm (cs : List Char) : Nat :=
  cs.countP (fun c => c = '*' || c = '_')

/-- Number of opening brackets (`[`), the annotation-processor measure. -/
def countBr (cs : List Char) : Nat :=
  cs.countP (fun c => c = '[')

/-- Number of `@` characters, the mark-processor measure. -/
def countAt (cs : List Char) : Nat :=
  cs.countP (fun c => c = '@')

/-- Number of dots, the break-processor measure. -/
def countDot (cs : List Char) : Nat :=
  cs.countP (fun c => c = '.')

/-- Number of hashes, the heading-processor measure. -/
def countHash (cs : List Char) : Nat :=
  cs.countP (fun c => c = '#')

/-- Number of prosody marker characters (`~ - + _ ^` and the `&` of the
escaped `&lt;`/`&gt;` markers). -/
def countPMk (cs : List Char) : Nat :=
  cs.countP (fun c => c = '~' || c = '-' || c = '+' || c = '_' || c = '^' || c = '&')

/-- Bracket count of an optional field. -/
def optCost : Option (List Char) → Nat
  | none => 0
  | some v => countBr v

/-- Total bracket count over the fields of an annotation: every character
of the produced SSML attributes comes from these fields or from
bracket-free template text. -/
def annCost : Annot → Nat
  | .audio url cb ce sp rp lv alt =>
    countBr url + optCost cb + optCost ce + optCost sp + optCost rp + optCost lv + countBr alt
  | .ext n => countBr n
  | .voice n l g v => optCost n + optCost l + optCost g + optCost v
  | .sayAs ia f d => countBr ia + optCost f + optCost d
  | .phoneme p => countBr p
  | .prosody v r p => optCost v + optCost r + optCost p
  | .subAlias al => countBr al
  | .language l => countBr l

/-- Total bracket cost of a list of annotations. -/
def listAnnCost (l : List Annot) : Nat :=
  (l.map annCost).sum

/-- Total bracket count of a list of chunks. -/
def listBrCost (l : List (List Char)) : Nat :=
  (l.map countBr).sum

/-! ## Helper lemmas -/

/-- A successful `scanFirst` comes from a successful attempt at some suffix. -/
theorem scanFirst_exists {α : Type} (f : List Char → Option α) :
    ∀ text pre a, scanFirst f text = some (pre, a) → ∃ cs, f cs = some a := by
  intro text
  induction text with
  | nil =>
    intro pre a h
    simp only [scanFirst, Option.map_eq_some'] at h
    obtain ⟨x, hx, he⟩ := h
    refine ⟨[], ?_⟩
    rw [hx]
    cases he
    rfl
  | cons c rest ih =>
    intro pre a h
    unfold scanFirst at h
    cases hf : f (c :: rest) with
    | some b => rw [hf] at h; simp at h; exact ⟨c :: rest, by rw [hf, h.2]⟩
    | none =>
      rw [hf] at h
      cases hs : scanFirst f rest with
      | some pa =>
        rw [hs] at h
        simp at h
        obtain ⟨pre', b⟩ := pa
        simp at h
        exact h.2 ▸ ih pre' b hs
      | none => rw [hs] at h; cases h

/-- Appending a final character makes the singleton its suffix. -/
theorem endsWith_last (xs : List Char) (c : Char) : endsWithL (xs ++ [c]) [c] = true := by
  simp [endsWithL, List.reverse_append, startsWithL]

/-- Every successful unit parse ends the captured modifier in `s`. -/
theorem breakUnitParse_shape (ds r : List Char) (m rest : List Char)
    (h : breakUnitParse ds r = some (m, rest)) : endsWithL m "s".data = true := by
  unfold breakUnitParse at h
  split at h
  · cases h; exact endsWith_last _ 's'
  · cases h
    have e : ds ++ "ms".data = (ds ++ ['m']) ++ ['s'] := by simp
    rw [e]
    exact endsWith_last _ 's'
  · cases h

/-- Every successful letter parse captures one of the strength letters. -/
theorem breakLetterParse_shape (r m rest : List Char)
    (h : breakLetterParse r = some (m, rest)) :
    endsWithL m "s".data = true ∨ m = "n".data ∨ m = "w".data ∨ m = "c".data ∨ m = "p".data := by
  unfold breakLetterParse at h
  split at h
  next c r2 =>
    split at h
    next hc =>
      cases h
      rcases Bool.or_eq_true _ _ |>.mp hc with h4 | h5
      · rcases Bool.or_eq_true _ _ |>.mp h4 with h3 | h4'
        · rcases Bool.or_eq_true _ _ |>.mp h3 with h2 | h3'
          · rcases Bool.or_eq_true _ _ |>.mp h2 with h1 | h2'
            · exact Or.inr (Or.inl (by simp [of_decide_eq_true h1]))
            · exact Or.inr (Or.inr (Or.inl (by simp [of_decide_eq_true h2'])))
          · exact Or.inr (Or.inr (Or.inr (Or.inl (by simp [of_decide_eq_true h3']))))
        · have : c = 's' := of_decide_eq_true h4'
          subst this
          exact Or.inl (endsWith_last [] 's')
      · have : c = 'p' := of_decide_eq_true h5
        subst this
        exact Or.inr (Or.inr (Or.inr (Or.inr rfl)))
    next => cases h
  next => cases h

/-- Every modifier captured by the break pattern is a strength letter or
ends in `s`. -/
theorem breakTryAt_modifier (cs : List Char) (m r : List Char)
    (h : breakTryAt cs = some (m, r)) :
    endsWithL m "s".data = true ∨ m = "n".data ∨ m = "w".data ∨ m = "c".data ∨ m = "p".data := by
  unfold breakTryAt at h
  split at h
  next r0 =>
    unfold breakModParse at h
    by_cases hd : (!(r0.takeWhile isDigitChar).isEmpty) = true
    · rw [if_pos hd] at h
      exact Or.inl (breakUnitParse_shape _ _ _ _ h)
    · rw [if_neg hd] at h
      exact breakLetterParse_shape _ _ _ h
  next => cases h

/-- A true `startsWithL` splits the list after the pattern. -/
theorem startsWithL_decomp : ∀ (xs p : List Char), startsWithL xs p = true → xs = p ++ xs.drop p.length := by
  intro xs p
  induction p generalizing xs with
  | nil => simp
  | cons a ps ih =>
    cases xs with
    | nil => intro h; cases h
    | cons x xs' =>
      intro h
      unfold startsWithL at h
      obtain ⟨h1, h2⟩ := Bool.and_eq_true _ _ |>.mp h
      have hx : x = a := of_decide_eq_true h1
      subst hx
      simpa using ih xs' h2

/-- A successful prosody content scan splits its input as content, closing
marker and rest, with nonempty content. -/
theorem prosodyAfterOpen_decomp (m : List Char) :
    ∀ (cs acc content rest : List Char), prosodyAfterOpen m acc cs = some (content, rest) →
      ∃ mid, mid ≠ [] ∧ cs = mid ++ m ++ rest ∧ content = acc ++ mid := by
  intro cs
  induction cs with
  | nil => intro acc content rest h; cases h
  | cons c cs' ih =>
    intro acc content rest h
    unfold prosodyAfterOpen at h
    split at h
    · cases h
    · split at h
      next hsw =>
        obtain ⟨hsw1, _⟩ := Bool.and_eq_true _ _ |>.mp hsw
        cases h
        refine ⟨[c], by simp, ?_, rfl⟩
        have := startsWithL_decomp cs' m hsw1
        simp only [List.cons_append, List.nil_append]
        rw [← this]
      next =>
        obtain ⟨mid, hne, hcs, hct⟩ := ih (acc ++ [c]) content rest h
        exact ⟨c :: mid, by simp, by simp [hcs], by simp [hct]⟩

/-- A successful marker attempt splits its input as marker, content, marker
and rest. -/
theorem prosodyMarkerTry_decomp :
    ∀ (ms : List (List Char)) (cs m content rest : List Char),
      prosodyMarkerTry cs ms = some (m, content, rest) →
      m ∈ ms ∧ content ≠ [] ∧ cs = m ++ content ++ m ++ rest := by
  intro ms
  induction ms with
  | nil => intro cs m content rest h; cases h
  | cons m0 ms' ih =>
    intro cs m content rest h
    unfold prosodyMarkerTry at h
    split at h
    next hsw =>
      cases hao : prosodyAfterOpen m0 [] (cs.drop m0.length) with
      | some pr =>
        rw [hao] at h
        obtain ⟨content0, rest0⟩ := pr
        simp only [Option.some_inj, Prod.mk.injEq] at h
        obtain ⟨hm0, hc0, hr0⟩ := h
        obtain ⟨mid, hne, hcs, hct⟩ := prosodyAfterOpen_decomp m0 _ [] content0 rest0 hao
        simp only [List.nil_append] at hct
        refine ⟨?_, ?_, ?_⟩
        · rw [← hm0]; exact List.mem_cons_self _ _
        · rw [← hc0, hct]; exact hne
        · have hdec := startsWithL_decomp cs m0 hsw
          rw [← hm0, ← hc0, ← hr0, hct]
          conv_lhs => rw [hdec]
          rw [hcs]
          simp
      | none =>
        rw [hao] at h
        obtain ⟨hm, hc, hcs⟩ := ih cs m content rest h
        exact ⟨List.mem_cons_of_mem _ hm, hc, hcs⟩
    next =>
      obtain ⟨hm, hc, hcs⟩ := ih cs m content rest h
      exact ⟨List.mem_cons_of_mem _ hm, hc, hcs⟩

/-- A successful `scanPrev` comes from a successful attempt at the suffix
after the consumed prefix. -/
theorem scanPrev_decomp {α : Type} (f : Option Char → List Char → Option α) :
    ∀ (text : List Char) (prev : Option Char) (pre : List Char) (a : α),
      scanPrev f prev text = some (pre, a) →
      ∃ pv cs, text = pre ++ cs ∧ f pv cs = some a := by
  intro text
  induction text with
  | nil => intro prev pre a h; cases h
  | cons c rest ih =>
    intro prev pre a h
    unfold scanPrev at h
    cases hf : f prev (c :: rest) with
    | some b =>
      rw [hf] at h
      simp only [Option.some_inj, Prod.mk.injEq] at h
      obtain ⟨hp, hb⟩ := h
      subst hb
      exact ⟨prev, c :: rest, by rw [← hp]; rfl, hf⟩
    | none =>
      rw [hf] at h
      cases hs : scanPrev f (some c) rest with
      | some pa =>
        rw [hs] at h
        obtain ⟨pre', b⟩ := pa
        simp only [Option.some_inj, Prod.mk.injEq] at h
        obtain ⟨hp, hb⟩ := h
        subst hb
        obtain ⟨pv, cs, hcs, hfc⟩ := ih (some c) pre' _ hs
        exact ⟨pv, cs, by rw [← hp, hcs]; rfl, hfc⟩
      | none => rw [hs] at h; cases h

/-- A successful prosody search decomposes the text around the match, with
nonempty marker and content. -/
theorem prosodySearch_decomp (t pre m c post : List Char)
    (h : prosodySearch t = some (pre, (m, c, post))) :
    t = pre ++ m ++ c ++ m ++ post ∧ m ≠ [] ∧ c ≠ [] := by
  obtain ⟨pv, cs, hcs, hf⟩ := scanPrev_decomp prosodyTryAt t none pre (m, c, post) h
  have hmt : prosodyMarkerTry cs prosodyMarkers = some (m, c, post) := by
    cases pv with
    | none => exact hf
    | some p =>
      rw [show prosodyTryAt (some p) cs =
            (if isAlnumChar p = true then none else prosodyMarkerTry cs prosodyMarkers) from rfl] at hf
      by_cases hp : isAlnumChar p = true
      · rw [if_pos hp] at hf; cases hf
      · rw [if_neg hp] at hf; exact hf
  obtain ⟨hm, hc, hdec⟩ := prosodyMarkerTry_decomp prosodyMarkers cs m c post hmt
  have hmne : m ≠ [] := by
    have hall : ∀ x ∈ prosodyMarkers, x ≠ ([] : List Char) := by decide
    exact hall m hm
  exact ⟨by rw [hcs, hdec]; simp, hmne, hc⟩

/-- The fuel of `prosodySubstGo` does not matter once it exceeds the text
length.  -/
theorem prosodySubstGo_fuel : ∀ (f₁ : Nat) (t : List Char) (f₂ : Nat),
    t.length < f₁ → t.length < f₂ → prosodySubstGo f₁ t = prosodySubstGo f₂ t := by
  intro f₁
  induction f₁ with
  | zero => intro t f₂ h₁ h₂; omega
  | succ a ih =>
    intro t f₂ h₁ h₂
    cases f₂ with
    | zero => omega
    | succ b =>
      simp only [prosodySubstGo]
      cases hs : prosodySearch t with
      | none => rfl
      | some pa =>
        obtain ⟨pre, m, c, post⟩ := pa
        obtain ⟨hdec, hm, hc⟩ := prosodySearch_decomp t pre m c post hs
        dsimp only
        by_cases hA : prosodyInAttr pre = true
        · rw [if_pos hA, if_pos hA]
          congr 1
          have hmp : 0 < m.length := List.length_pos.mpr hm
          have hcp : 0 < c.length := List.length_pos.mpr hc
          have hlen : t.length = pre.length + m.length + c.length + m.length + post.length := by
            rw [hdec]; simp; omega
          have hdl : (t.drop (pre.length + m.length + c.length + m.length)).length =
              t.length - (pre.length + m.length + c.length + m.length) := by
            simp [List.length_drop]
          apply ih
          · omega
          · omega
        · rw [if_neg hA, if_neg hA]

/-- The lemma behind C1, generalized over the already-emitted prefix. -/
theorem parseSpansGo_spec (toks : List SpanTok) :
    ∀ pre : List Char,
      List.Forall₂
        (fun (sp : AnnSpan) (txt : List Char) =>
          sliceL (pre ++ (parseSpansGo pre.length toks).1) sp.charStart sp.charEnd = txt)
        (parseSpansGo pre.length toks).2 (annTexts toks) := by
  induction toks with
  | nil => intro pre; simp [parseSpansGo, annTexts]
  | cons tok rest ih =>
    intro pre
    cases tok with
    | plain t =>
      have ih' := ih (pre ++ t)
      rw [List.length_append] at ih'
      rw [List.append_assoc] at ih'
      simpa [parseSpansGo, annTexts, List.filterMap_cons] using ih'
    | ann t attrs =>
      have ih' := ih (pre ++ t)
      rw [List.length_append] at ih'
      rw [List.append_assoc] at ih'
      simp only [parseSpansGo, annTexts, List.filterMap_cons]
      refine List.Forall₂.cons ?_ ih'
      show sliceL (pre ++ (t ++ (parseSpansGo (pre.length + t.length) rest).1))
          pre.length (pre.length + t.length) = t
      rw [sliceL, Nat.add_sub_cancel_left, List.drop_left, List.take_left]

/-! ## Claim theorems -/

/-- C1: for every tokenized input, every annotation span of `parse_spans`
(modelled from the spec, its implementation being absent from the sources)
satisfies `clean_text[s.char_start:s.char_end] =` the annotated substring
with its markup removed, regardless of how many annotations were stripped
before or after it; in particular the spec's example
`parse_spans("Say [tomato]{ph='a'} now.")` yields clean text
`"Say tomato now."` with one span `(4, 10)` carrying `ph=a`. -/
theorem parse_spans_spans_index_clean_text :
    (∀ toks : List SpanTok,
      List.Forall₂
        (fun (sp : AnnSpan) (txt : List Char) =>
          sliceL (parseSpansModel toks).1 sp.charStart sp.charEnd = txt)
        (parseSpansModel toks).2 (annTexts toks)) ∧
    parseSpansModel
        [.plain "Say ".data, .ann "tomato".data [("ph".data, "a".data)], .plain " now.".data] =
      ("Say tomato now.".data, [⟨4, 10, [("ph".data, "a".data)]⟩]) := by
  constructor
  · intro toks
    have h := parseSpansGo_spec toks []
    simpa [parseSpansModel] using h
  · rfl

/-- C3: annotation resolution tries the recognizers in the fixed priority
order audio, extension, voice, say-as, phoneme, prosody, substitution, bare
language code last, returns the annotation built by the first recognizer
that succeeds with no backtracking across variants, and returns none when
every recognizer fails. -/
theorem annotation_resolution_fixed_priority (s : List Char) :
    getAnnot s =
      match tryAudio s with
      | some a => some a
      | none =>
        match tryExt s with
        | some a => some a
        | none =>
          match tryVoiceAnn s with
          | some a => some a
          | none =>
            match trySayAs s with
            | some a => some a
            | none =>
              match tryPhoneme s with
              | some a => some a
              | none =>
                match tryProsodyAnn s with
                | some a => some a
                | none =>
                  match trySubAnn s with
                  | some a => some a
                  | none => tryLangAnn s := by
  simp only [getAnnot, annotTryers, firstAnnot]
  cases tryAudio s <;> cases tryExt s <;> cases tryVoiceAnn s <;> cases trySayAs s <;>
    cases tryPhoneme s <;> cases tryProsodyAnn s <;> cases trySubAnn s <;>
    cases tryLangAnn s <;> rfl

/-- C4: a capability set with `emphasis=False` never raises; converting
`"Hello *world*!"` silently reduces the emphasis markup to its plain-text
content: the output contains `world` and no `<emphasis>` tag. -/
theorem convert_emphasis_unsupported_degrades :
    convertSSMD (configWithCaps (capsInit { emphasis := false })) "Hello *world*!".data =
      some "<speak><p>Hello *world*!</p></speak>".data ∧
    containsSeq "<speak><p>Hello *world*!</p></speak>".data "world".data = true ∧
    containsSeq "<speak><p>Hello *world*!</p></speak>".data "<emphasis".data = false := by
  refine ⟨by rfl, by decide, by decide⟩

/-- C5: when several annotations resolve from one bracket group (non-voice),
the output nests in resolution order applied innermost-first: the
first-resolved annotation wraps the raw text and every later-resolved
annotation wraps everything produced so far. -/
theorem annotation_wrapping_innermost_first (caps? : Option Caps) (text params : List Char)
    (hv : voiceRegexOk (stripWs params) = false)
    (a : Annot) (rest : List Annot)
    (hb : buildAnnots caps? ((splitOnChar ',' params).map stripWs) [] = a :: rest) :
    annotResult caps? text params =
      rest.foldl (fun acc x => annotWrap x acc) (annotWrap a text) := by
  unfold annotResult
  simp only [hv, Bool.false_eq_true, if_false, hb, List.foldl_cons]

/-- Witness for C5 at `[text](en, ipa: x)`: the first-resolved language
annotation is innermost, the later-resolved phoneme wraps it. -/
theorem annotation_wrapping_innermost_first_witness :
    annotResult none "text".data "en, ipa: x".data =
      [Annot.phoneme "x".data].foldl (fun acc x => annotWrap x acc)
        (annotWrap (Annot.language "en-US".data) "text".data) :=
  annotation_wrapping_innermost_first none "text".data "en, ipa: x".data (by rfl)
    (Annot.language "en-US".data) [Annot.phoneme "x".data] (by rfl)

/-- C6: comma-separated parameters are resolved independently, and when two
resolved annotations share a variant they are merged by that variant's
combine rule before any wrapping: by default the first instance wins and the
duplicate is discarded, except Prosody, where fields missing in the first
instance are filled in from the duplicate. -/
theorem duplicate_annotations_combined (caps? : Option Caps) (p₁ p₂ : List Char) (a₁ a₂ : Annot)
    (h₁ : getAnnot p₁ = some a₁) (h₂ : getAnnot p₂ = some a₂)
    (hk : annKind a₁ = annKind a₂)
    (hs₁ : isAnnotSupported caps? a₁ = true) (hs₂ : isAnnotSupported caps? a₂ = true) :
    buildAnnots caps? [p₁, p₂] [] = [annotCombine a₁ a₂] ∧
    ((∀ v r p, a₁ ≠ Annot.prosody v r p) → annotCombine a₁ a₂ = a₁) ∧
    (∀ v r p v' r' p', a₁ = Annot.prosody v r p → a₂ = Annot.prosody v' r' p' →
      annotCombine a₁ a₂ =
        Annot.prosody (orElseOpt v v') (orElseOpt r r') (orElseOpt p p')) := by
  refine ⟨?_, ?_, ?_⟩
  · simp only [buildAnnots, h₁, h₂, hs₁, hs₂, if_true, insertAnnot, List.any_nil,
      List.any_cons, hk, Bool.true_or, Bool.or_self, List.nil_append,
      replaceFirstSame, if_pos, Bool.false_eq_true, if_false]
    simp [hk]
  · intro hnp
    cases a₁ with
    | prosody v r p => exact absurd rfl (hnp v r p)
    | _ => cases a₂ <;> rfl
  · intro v r p v' r' p' e₁ e₂
    subst e₁; subst e₂; rfl

/-- Witness for C6 at `(v: 5, r: 3)`: two prosody annotations merge into
one, the duplicate filling the missing rate field. -/
theorem duplicate_annotations_combined_witness :
    buildAnnots none ["v: 5".data, "r: 3".data] [] =
      [Annot.prosody (some "x-loud".data) (some "medium".data) none] := by
  have h := (duplicate_annotations_combined none "v: 5".data "r: 3".data
    (Annot.prosody (some "x-loud".data) none none)
    (Annot.prosody none (some "medium".data) none)
    (by rfl) (by rfl) (by rfl) (by rfl) (by rfl)).1
  exact h

/-- C7: the claim that strip is idempotent fails on the code: stripping
`"_a__b_"` yields `"a_b_"` (the prosody pass removes the pitch markers
around `a`), and stripping again removes the now-exposed reduced-emphasis
markup, yielding `"ab"` — so `strip(strip(X)) ≠ strip(X)`, contradicting
both the spec's idempotence property and strip's documented contract of
returning text with all markup removed. -/
theorem strip_not_idempotent_on_underscores :
    stripSSMD defaultConfig "_a__b_".data = some "a_b_".data ∧
    stripSSMD defaultConfig "a_b_".data = some "ab".data ∧
    "ab".data ≠ "a_b_".data := by
  refine ⟨by rfl, by rfl, by decide⟩

/-- C8: converting `"hello *world*!"` with the default configuration returns
exactly `"<speak><p>hello <emphasis>world</emphasis>!</p></speak>"`. -/
theorem convert_hello_world_default :
    convertSSMD defaultConfig "hello *world*!".data =
      some "<speak><p>hello <emphasis>world</emphasis>!</p></speak>".data := by
  rfl

/-- C9: whenever the first prosody-shorthand match lies inside an
already-emitted XML attribute value (detected by scanning backward from the
match), `ProsodyProcessor.substitute` leaves the match unchanged and
continues substitution only after it. -/
theorem prosody_skip_inside_attribute (text pre marker content post : List Char)
    (h : prosodySearch text = some (pre, (marker, content, post)))
    (ha : prosodyInAttr pre = true) :
    prosodySubst text =
      text.take (pre.length + marker.length + content.length + marker.length) ++
        prosodySubst (text.drop (pre.length + marker.length + content.length + marker.length)) := by
  obtain ⟨hdec, hm, hc⟩ := prosodySearch_decomp text pre marker content post h
  have hmp : 0 < marker.length := List.length_pos.mpr hm
  have hcp : 0 < content.length := List.length_pos.mpr hc
  have hlen : text.length = pre.length + marker.length + content.length + marker.length + post.length := by
    rw [hdec]; simp; omega
  have hdl : (text.drop (pre.length + marker.length + content.length + marker.length)).length =
      text.length - (pre.length + marker.length + content.length + marker.length) := by
    simp [List.length_drop]
  have step : prosodySubstGo (text.length + 1) text =
      text.take (pre.length + marker.length + content.length + marker.length) ++
        prosodySubstGo text.length
          (text.drop (pre.length + marker.length + content.length + marker.length)) := by
    simp only [prosodySubstGo]
    rw [h]
    dsimp only
    rw [if_pos ha]
  unfold prosodySubst
  rw [step]
  congr 1
  apply prosodySubstGo_fuel
  · omega
  · omega

/-- Witness for C9: in `<a b="+c+"> +d+` the first shorthand match `+c+`
sits inside the attribute value, is kept verbatim, and substitution
continues after it. -/
theorem prosody_skip_inside_attribute_witness :
    prosodySubst "<a b=\"+c+\"> +d+".data =
      "<a b=\"+c+\"> +d+".data.take 9 ++ prosodySubst ("<a b=\"+c+\"> +d+".data.drop 9) :=
  prosody_skip_inside_attribute "<a b=\"+c+\"> +d+".data "<a b=\"".data "+".data "c".data
    "\"> +d+".data (by rfl) (by rfl)

/-- C10: every modifier captured by the break regex is a strength letter or
ends in `s`/`ms`, so the fallback branch of `BreakProcessor.result` that
appends `ms` to a unitless number is unreachable. -/
theorem break_modifier_no_fallback (text pre m rest : List Char)
    (h : breakSearch text = some (pre, (m, rest))) :
    ((m = "n".data ∨ m = "w".data ∨ m = "c".data ∨ m = "s".data ∨ m = "p".data) ∨
      endsWithL m "s".data = true ∨ endsWithL m "ms".data = true) ∧
    breakFallbackUsed m = false := by
  obtain ⟨cs, hcs⟩ := scanFirst_exists breakTryAt text pre (m, rest) h
  have hs := breakTryAt_modifier cs m rest hcs
  constructor
  · rcases hs with hx | hx | hx | hx | hx
    · exact Or.inr (Or.inl hx)
    · exact Or.inl (Or.inl hx)
    · exact Or.inl (Or.inr (Or.inl hx))
    · exact Or.inl (Or.inr (Or.inr (Or.inl hx)))
    · exact Or.inl (Or.inr (Or.inr (Or.inr (Or.inr hx))))
  · rcases hs with hx | hx | hx | hx | hx <;> simp [breakFallbackUsed, hx]

/-- Witness for C10 at the match `...500ms` in `a...500ms b`. -/
theorem break_modifier_no_fallback_witness :
    ((("500ms".data = "n".data ∨ "500ms".data = "w".data ∨ "500ms".data = "c".data ∨
        "500ms".data = "s".data ∨ "500ms".data = "p".data) ∨
      endsWithL "500ms".data "s".data = true ∨ endsWithL "500ms".data "ms".data = true)) ∧
    breakFallbackUsed "500ms".data = false :=
  break_modifier_no_fallback "a...500ms b".data "a".data "500ms".data " b".data (by rfl)

/-! ## Termination of the per-processor rewrite loop (C2) -/

theorem countBr_append (xs ys : List Char) : countBr (xs ++ ys) = countBr xs + countBr ys := by
  simp [countBr, List.countP_append]

theorem countBr_le_of_sublist {xs ys : List Char} (h : xs.Sublist ys) : countBr xs ≤ countBr ys :=
  List.Sublist.countP_le _ h

theorem countBr_cons (c : Char) (xs : List Char) :
    countBr (c :: xs) = (if c = '[' then 1 else 0) + countBr xs := by
  by_cases hc : c = '['
  · simp [countBr, List.countP_cons, hc]; omega
  · simp [countBr, List.countP_cons, hc]

theorem stripAround_sublist (P : Char → Bool) (cs : List Char) :
    (((cs.dropWhile P).reverse.dropWhile P).reverse).Sublist cs := by
  have h1 : (cs.dropWhile P).Sublist cs := List.dropWhile_sublist _
  have h2 : (((cs.dropWhile P).reverse.dropWhile P)).Sublist (cs.dropWhile P).reverse :=
    List.dropWhile_sublist _
  have h3 : ((((cs.dropWhile P).reverse.dropWhile P)).reverse).Sublist
      ((cs.dropWhile P).reverse.reverse) := List.reverse_sublist.mpr h2
  rw [List.reverse_reverse] at h3
  exact h3.trans h1

theorem stripWs_sublist (cs : List Char) : (stripWs cs).Sublist cs :=
  stripAround_sublist isWsChar cs

theorem countBr_stripWs_le (cs : List Char) : countBr (stripWs cs) ≤ countBr cs :=
  countBr_le_of_sublist (stripWs_sublist cs)

theorem countBr_takeWhile_zero (P : Char → Bool) (hP : P '[' = false) (cs : List Char) :
    countBr (cs.takeWhile P) = 0 := by
  simp only [countBr, List.countP_eq_zero]
  intro a ha
  have := List.mem_takeWhile_imp ha
  simp only [decide_eq_true_eq]
  intro he
  rw [he] at this
  rw [hP] at this
  cases this

theorem countBr_drop_le (n : Nat) (cs : List Char) : countBr (cs.drop n) ≤ countBr cs :=
  countBr_le_of_sublist (List.drop_sublist _ _)

theorem countBr_dropWhile_le (P : Char → Bool) (cs : List Char) :
    countBr (cs.dropWhile P) ≤ countBr cs :=
  countBr_le_of_sublist (List.dropWhile_sublist _)

theorem countBr_takeWhile_le (P : Char → Bool) (cs : List Char) :
    countBr (cs.takeWhile P) ≤ countBr cs :=
  countBr_le_of_sublist (List.takeWhile_sublist _)

theorem listBrCost_append (xs ys : List (List Char)) :
    listBrCost (xs ++ ys) = listBrCost xs + listBrCost ys := by
  simp [listBrCost]

theorem countBr_joinSep (sep : List Char) (hsep : countBr sep = 0) :
    ∀ l : List (List Char), countBr (joinSep sep l) = listBrCost l := by
  intro l
  induction l with
  | nil => simp [joinSep, listBrCost, countBr]
  | cons x ys ih =>
    cases ys with
    | nil => simp [joinSep, listBrCost, countBr]
    | cons y zs =>
      simp only [joinSep, countBr_append, hsep, ih, listBrCost, List.map_cons, List.sum_cons]
      omega

theorem countBr_attrKV (k v : List Char) (hk : countBr k = 0) :
    countBr (attrKV k v) = countBr v := by
  unfold attrKV
  rw [countBr_append, countBr_append, countBr_append, hk]
  have e1 : countBr "=\"".data = 0 := by decide
  have e2 : countBr "\"".data = 0 := by decide
  rw [e1, e2]
  omega

theorem listBrCost_optAttr_le (name : List Char) (hn : countBr name = 0)
    (v : Option (List Char)) : listBrCost (optAttr name v) ≤ optCost v := by
  cases v with
  | none => simp [optAttr, optTruthy, listBrCost, optCost]
  | some x =>
    cases x with
    | nil => simp [optAttr, optTruthy, listBrCost, optCost]
    | cons c cs =>
      simp [optAttr, optTruthy, listBrCost, optCost, countBr_attrKV _ _ hn]

theorem optTruthy_some {n : Option (List Char)} {nm : List Char}
    (h : optTruthy n = some nm) : n = some nm := by
  cases n with
  | none => cases h
  | some v =>
    cases v with
    | nil => cases h
    | cons c cs => cases h; rfl

theorem countBr_annotWrap_le (a : Annot) (text : List Char) :
    countBr (annotWrap a text) ≤ countBr text + annCost a := by
  cases a with
  | language l =>
    unfold annotWrap annCost
    dsimp only
    have e1 : countBr "<lang xml:lang=\"".data = 0 := by decide
    have e2 : countBr "\">".data = 0 := by decide
    have e3 : countBr "</lang>".data = 0 := by decide
    dsimp only at e1 e2 e3
    rw [countBr_append, countBr_append, countBr_append, countBr_append]
    omega
  | phoneme p =>
    unfold annotWrap annCost
    dsimp only
    have e1 : countBr "<phoneme alphabet=\"ipa\" ph=\"".data = 0 := by decide
    have e2 : countBr "\">".data = 0 := by decide
    have e3 : countBr "</phoneme>".data = 0 := by decide
    dsimp only at e1 e2 e3
    rw [countBr_append, countBr_append, countBr_append, countBr_append]
    omega
  | subAlias al =>
    unfold annotWrap annCost
    dsimp only
    have e1 : countBr "<sub alias=\"".data = 0 := by decide
    have e2 : countBr "\">".data = 0 := by decide
    have e3 : countBr "</sub>".data = 0 := by decide
    dsimp only at e1 e2 e3
    rw [countBr_append, countBr_append, countBr_append, countBr_append]
    omega
  | sayAs ia fmt det =>
    unfold annotWrap annCost
    dsimp only
    have hj := countBr_joinSep " ".data (by decide)
      ([attrKV "interpret-as".data ia] ++ optAttr "format".data fmt ++ optAttr "detail".data det)
    have h1 : listBrCost [attrKV "interpret-as".data ia] = countBr ia := by
      simp [listBrCost, countBr_attrKV _ _ (by decide : countBr "interpret-as".data = 0)]
    have h2 := listBrCost_optAttr_le "format".data (by decide) fmt
    have h3 := listBrCost_optAttr_le "detail".data (by decide) det
    have hl := listBrCost_append ([attrKV "interpret-as".data ia] ++ optAttr "format".data fmt)
      (optAttr "detail".data det)
    have hl2 := listBrCost_append [attrKV "interpret-as".data ia] (optAttr "format".data fmt)
    have e1 : countBr "<say-as ".data = 0 := by decide
    have e2 : countBr ">".data = 0 := by decide
    have e3 : countBr "</say-as>".data = 0 := by decide
    dsimp only at hj h1 h2 h3 hl hl2 e1 e2 e3 ⊢
    rw [countBr_append, countBr_append, countBr_append, countBr_append]
    omega
  | prosody v r p =>
    unfold annotWrap annCost
    dsimp only
    by_cases hA : (optAttr "volume".data v ++ optAttr "rate".data r ++
        optAttr "pitch".data p).isEmpty
    · rw [if_pos hA]; omega
    · rw [if_neg hA]
      have hj := countBr_joinSep " ".data (by decide)
        (optAttr "volume".data v ++ optAttr "rate".data r ++ optAttr "pitch".data p)
      have h1 := listBrCost_optAttr_le "volume".data (by decide) v
      have h2 := listBrCost_optAttr_le "rate".data (by decide) r
      have h3 := listBrCost_optAttr_le "pitch".data (by decide) p
      have hl := listBrCost_append (optAttr "volume".data v ++ optAttr "rate".data r)
        (optAttr "pitch".data p)
      have hl2 := listBrCost_append (optAttr "volume".data v) (optAttr "rate".data r)
      have e1 : countBr "<prosody ".data = 0 := by decide
      have e2 : countBr ">".data = 0 := by decide
      have e3 : countBr "</prosody>".data = 0 := by decide
      dsimp only at hj h1 h2 h3 hl hl2 e1 e2 e3 ⊢
      rw [countBr_append, countBr_append, countBr_append, countBr_append]
      omega
  | voice n l g vr =>
    unfold annotWrap annCost
    dsimp only
    cases hn : optTruthy n with
    | some nm =>
      have hn' : n = some nm := optTruthy_some hn
      subst hn'
      dsimp only
      have hj := countBr_joinSep " ".data (by decide) [attrKV "name".data nm]
      have h1 : listBrCost [attrKV "name".data nm] = countBr nm := by
        simp [listBrCost, countBr_attrKV _ _ (by decide : countBr "name".data = 0)]
      have e1 : countBr "<voice ".data = 0 := by decide
      have e2 : countBr ">".data = 0 := by decide
      have e3 : countBr "</voice>".data = 0 := by decide
      dsimp only at hj h1 e1 e2 e3 ⊢
      rw [countBr_append, countBr_append, countBr_append, countBr_append]
      simp only [optCost]
      omega
    | none =>
      dsimp only
      have hj := countBr_joinSep " ".data (by decide)
        (optAttr "language".data l ++ optAttr "gender".data g ++ optAttr "variant".data vr)
      have h1 := listBrCost_optAttr_le "language".data (by decide) l
      have h2 := listBrCost_optAttr_le "gender".data (by decide) g
      have h3 := listBrCost_optAttr_le "variant".data (by decide) vr
      have hl := listBrCost_append (optAttr "language".data l ++ optAttr "gender".data g)
        (optAttr "variant".data vr)
      have hl2 := listBrCost_append (optAttr "language".data l) (optAttr "gender".data g)
      have e1 : countBr "<voice ".data = 0 := by decide
      have e2 : countBr ">".data = 0 := by decide
      have e3 : countBr "</voice>".data = 0 := by decide
      dsimp only at hj h1 h2 h3 hl hl2 e1 e2 e3 ⊢
      rw [countBr_append, countBr_append, countBr_append, countBr_append]
      omega
  | ext name =>
    unfold annotWrap annCost
    dsimp only
    by_cases h1 : name = "whisper".data
    · rw [if_pos (by dsimp only at h1 ⊢; exact h1)]
      have e1 : countBr "<amazon:effect name=\"whispered\">".data = 0 := by decide
      have e2 : countBr "</amazon:effect>".data = 0 := by decide
      dsimp only at e1 e2
      rw [countBr_append, countBr_append]
      omega
    · rw [if_neg (by dsimp only at h1 ⊢; exact h1)]
      by_cases h2 : name = "audio".data
      · rw [if_pos (by dsimp only at h2 ⊢; exact h2)]
        have e1 : countBr "<audio src=\"".data = 0 := by decide
        have e2 : countBr "\"/>".data = 0 := by decide
        dsimp only at e1 e2
        rw [countBr_append, countBr_append]
        omega
      · rw [if_neg (by dsimp only at h2 ⊢; exact h2)]
        omega
  | audio url cb ce sp rp lv alt =>
    unfold annotWrap annCost
    dsimp only
    have hj := countBr_joinSep " ".data (by decide)
      ([attrKV "src".data url] ++ optAttr "clipBegin".data cb ++ optAttr "clipEnd".data ce ++
        optAttr "speed".data sp ++ optAttr "repeatCount".data rp ++ optAttr "soundLevel".data lv)
    have h0 : listBrCost [attrKV "src".data url] = countBr url := by
      simp [listBrCost, countBr_attrKV _ _ (by decide : countBr "src".data = 0)]
    have h1 := listBrCost_optAttr_le "clipBegin".data (by decide) cb
    have h2 := listBrCost_optAttr_le "clipEnd".data (by decide) ce
    have h3 := listBrCost_optAttr_le "speed".data (by decide) sp
    have h4 := listBrCost_optAttr_le "repeatCount".data (by decide) rp
    have h5 := listBrCost_optAttr_le "soundLevel".data (by decide) lv
    have hl1 := listBrCost_append
      ([attrKV "src".data url] ++ optAttr "clipBegin".data cb ++ optAttr "clipEnd".data ce ++
        optAttr "speed".data sp ++ optAttr "repeatCount".data rp) (optAttr "soundLevel".data lv)
    have hl2 := listBrCost_append
      ([attrKV "src".data url] ++ optAttr "clipBegin".data cb ++ optAttr "clipEnd".data ce ++
        optAttr "speed".data sp) (optAttr "repeatCount".data rp)
    have hl3 := listBrCost_append
      ([attrKV "src".data url] ++ optAttr "clipBegin".data cb ++ optAttr "clipEnd".data ce)
      (optAttr "speed".data sp)
    have hl4 := listBrCost_append ([attrKV "src".data url] ++ optAttr "clipBegin".data cb)
      (optAttr "clipEnd".data ce)
    have hl5 := listBrCost_append [attrKV "src".data url] (optAttr "clipBegin".data cb)
    have e1 : countBr "<audio ".data = 0 := by decide
    have e2 : countBr ">".data = 0 := by decide
    have e3 : countBr "</audio>".data = 0 := by decide
    have hdesc : countBr (if (List.isEmpty text) = true then [] else
        "<desc>".data ++ text ++ "</desc>".data) ≤ countBr text := by
      by_cases ht : text.isEmpty
      · rw [if_pos ht]; simp [countBr]
      · rw [if_neg ht]
        rw [countBr_append, countBr_append]
        have d1 : countBr "<desc>".data = 0 := by decide
        have d2 : countBr "</desc>".data = 0 := by decide
        omega
    dsimp only at hj h0 h1 h2 h3 h4 h5 hl1 hl2 hl3 hl4 hl5 e1 e2 e3 hdesc ⊢
    rw [countBr_append, countBr_append, countBr_append, countBr_append, countBr_append]
    omega

theorem optCost_orElse_le (x y : Option (List Char)) :
    optCost (orElseOpt x y) ≤ optCost x + optCost y := by
  cases x <;> simp [orElseOpt, optCost]

theorem annCost_combine_le (a b : Annot) :
    annCost (annotCombine a b) ≤ annCost a + annCost b := by
  cases a with
  | prosody v r p =>
    cases b with
    | prosody v' r' p' =>
      simp only [annotCombine, annCost]
      have h1 := optCost_orElse_le v v'
      have h2 := optCost_orElse_le r r'
      have h3 := optCost_orElse_le p p'
      omega
    | _ => simp [annotCombine]
  | _ => cases b <;> simp [annotCombine]

theorem listAnnCost_replaceFirstSame_le (acc : List Annot) (ann : Annot) :
    listAnnCost (replaceFirstSame acc ann) ≤ listAnnCost acc + annCost ann := by
  induction acc with
  | nil => simp [replaceFirstSame, listAnnCost]
  | cons a rest ih =>
    unfold replaceFirstSame
    by_cases hk : annKind a = annKind ann
    · rw [if_pos hk]
      simp only [listAnnCost, List.map_cons, List.sum_cons]
      have := annCost_combine_le a ann
      simp only [listAnnCost] at *
      omega
    · rw [if_neg hk]
      simp only [listAnnCost, List.map_cons, List.sum_cons] at *
      omega

theorem listAnnCost_insert_le (acc : List Annot) (ann : Annot) :
    listAnnCost (insertAnnot acc ann) ≤ listAnnCost acc + annCost ann := by
  unfold insertAnnot
  by_cases h : acc.any (fun a => annKind a = annKind ann)
  · rw [if_pos h]; exact listAnnCost_replaceFirstSame_le acc ann
  · rw [if_neg h]
    simp [listAnnCost]

theorem countBr_foldl_wrap_le (anns : List Annot) :
    ∀ text : List Char,
      countBr (anns.foldl (fun acc a => annotWrap a acc) text) ≤
        countBr text + listAnnCost anns := by
  induction anns with
  | nil => intro text; simp [listAnnCost]
  | cons a rest ih =>
    intro text
    rw [List.foldl_cons]
    have h1 := ih (annotWrap a text)
    have h2 := countBr_annotWrap_le a text
    simp only [listAnnCost, List.map_cons, List.sum_cons] at *
    omega

theorem listBrCost_splitOnChar_le (sep : Char) (cs : List Char) :
    listBrCost (splitOnChar sep cs) ≤ countBr cs := by
  induction cs with
  | nil => simp [splitOnChar, listBrCost, countBr]
  | cons c rest ih =>
    unfold splitOnChar
    by_cases hc : c = sep
    · rw [if_pos hc]
      simp only [listBrCost, List.map_cons, List.sum_cons, countBr_cons]
      simp only [listBrCost] at ih
      have h0 : countBr ([] : List Char) = 0 := rfl
      omega
    · rw [if_neg hc]
      cases hr : splitOnChar sep rest with
      | nil =>
        simp only [listBrCost, List.map_cons, List.sum_cons, List.map_nil, List.sum_nil,
          countBr_cons]
        have h0 : countBr ([] : List Char) = 0 := rfl
        omega
      | cons g gs =>
        rw [hr] at ih
        simp only [listBrCost, List.map_cons, List.sum_cons, countBr_cons] at *
        omega

theorem listBrCost_map_stripWs_le (l : List (List Char)) :
    listBrCost (l.map stripWs) ≤ listBrCost l := by
  induction l with
  | nil => simp [listBrCost]
  | cons x xs ih =>
    simp only [List.map_cons, listBrCost, List.sum_cons] at *
    have := countBr_stripWs_le x
    omega

theorem countBr_nil : countBr ([] : List Char) = 0 := rfl

theorem tryVoiceValAt_zero (cs v : List Char) (h : tryVoiceValAt cs = some v) :
    countBr v = 0 := by
  unfold tryVoiceValAt at h
  split at h
  · dsimp only at h
    split at h
    · cases h
    · cases h; exact countBr_takeWhile_zero _ (by decide) _
  · cases h

theorem tryGenderValAt_zero (cs v : List Char) (h : tryGenderValAt cs = some v) :
    countBr v = 0 := by
  unfold tryGenderValAt at h
  split at h
  · dsimp only at h
    split at h
    · cases h; decide
    · split at h
      · cases h; decide
      · split at h
        · cases h; decide
        · cases h
  · cases h

theorem tryVariantValAt_zero (cs v : List Char) (h : tryVariantValAt cs = some v) :
    countBr v = 0 := by
  unfold tryVariantValAt at h
  split at h
  · dsimp only at h
    split at h
    · cases h
    · cases h; exact countBr_takeWhile_zero _ (by decide) _
  · cases h

theorem optCost_scanFirst_zero (f : List Char → Option (List Char))
    (h0 : ∀ cs v, f cs = some v → countBr v = 0) (t : List Char) :
    optCost ((scanFirst f t).map Prod.snd) = 0 := by
  cases h : scanFirst f t with
  | none => simp [optCost]
  | some pa =>
    obtain ⟨pre, v⟩ := pa
    simp only [Option.map_some']
    obtain ⟨cs, hcs⟩ := scanFirst_exists f t pre v h
    exact h0 cs v hcs

theorem annCost_voiceFromParams (t : List Char) : annCost (voiceFromParams t) = 0 := by
  unfold voiceFromParams
  have hg := optCost_scanFirst_zero tryGenderValAt tryGenderValAt_zero t
  have hvr := optCost_scanFirst_zero tryVariantValAt tryVariantValAt_zero t
  have h0 : optCost none = 0 := rfl
  cases hval : scanFirst tryVoiceValAt t with
  | none =>
    simp only [Option.map_none']
    simp only [annCost]
    omega
  | some pa =>
    obtain ⟨pre, v⟩ := pa
    have hv0 : countBr v = 0 := by
      obtain ⟨cs, hcs⟩ := scanFirst_exists tryVoiceValAt t pre v hval
      exact tryVoiceValAt_zero cs v hcs
    simp only [Option.map_some']
    dsimp only
    have h1 : optCost (some v) = countBr v := rfl
    by_cases hcase : (containsSeq t "gender:".data || containsSeq t "variant:".data ||
        isLangCode v) = true
    · rw [if_pos hcase]
      simp only [annCost]
      omega
    · rw [if_neg hcase]
      simp only [annCost]
      omega

theorem countBr_dwd_le (s : List Char) (k : Nat) :
    countBr (((stripWs s).drop k).dropWhile isWsChar) ≤ countBr s :=
  le_trans (countBr_dropWhile_le _ _) (le_trans (countBr_drop_le _ _) (countBr_stripWs_le s))

theorem tryExt_cost (s : List Char) (a : Annot) (h : tryExt s = some a) :
    annCost a ≤ countBr s := by
  simp only [tryExt] at h
  split at h
  · split at h
    · cases h
    · cases h
      simp only [annCost]
      rw [countBr_takeWhile_zero _ (by decide)]
      omega
  · cases h

theorem tryVoiceAnn_cost (s : List Char) (a : Annot) (h : tryVoiceAnn s = some a) :
    annCost a ≤ countBr s := by
  unfold tryVoiceAnn at h
  dsimp only at h
  split at h
  · cases h
    rw [annCost_voiceFromParams]
    omega
  · cases h

theorem tryPhoneme_cost (s : List Char) (a : Annot) (h : tryPhoneme s = some a) :
    annCost a ≤ countBr s := by
  unfold tryPhoneme at h
  dsimp only at h
  split at h
  next => cases h
  next isX body heq =>
    split at h
    · cases h
    · cases h
      simp only [annCost]
      have hb : countBr body ≤ countBr s := by
        split at heq
        · cases heq
          exact le_trans (countBr_drop_le _ _) (countBr_stripWs_le s)
        · split at heq
          · cases heq
            exact le_trans (countBr_drop_le _ _) (countBr_stripWs_le s)
          · cases heq
      have hr : countBr (stripWs (body.dropWhile isWsChar)) ≤ countBr s :=
        le_trans (countBr_stripWs_le _) (le_trans (countBr_dropWhile_le _ _) hb)
      cases isX with
      | true => simpa [xsampaToIpa] using hr
      | false => simpa using hr

theorem trySubAnn_cost (s : List Char) (a : Annot) (h : trySubAnn s = some a) :
    annCost a ≤ countBr s := by
  simp only [trySubAnn] at h
  split at h
  · split at h
    · cases h
    · cases h
      simp only [annCost]
      exact le_trans (countBr_stripWs_le _) (countBr_dwd_le s 4)
  · cases h

theorem langDefaults_cost (code : List Char) : countBr (langDefaults code) ≤ countBr code := by
  unfold langDefaults
  by_cases h1 : code = "en".data
  · rw [if_pos h1, h1]; decide
  rw [if_neg h1]
  by_cases h2 : code = "de".data
  · rw [if_pos h2, h2]; decide
  rw [if_neg h2]
  by_cases h3 : code = "fr".data
  · rw [if_pos h3, h3]; decide
  rw [if_neg h3]
  by_cases h4 : code = "es".data
  · rw [if_pos h4, h4]; decide
  rw [if_neg h4]
  by_cases h5 : code = "it".data
  · rw [if_pos h5, h5]; decide
  rw [if_neg h5]
  by_cases h6 : code = "pt".data
  · rw [if_pos h6, h6]; decide
  rw [if_neg h6]
  by_cases h7 : code = "ru".data
  · rw [if_pos h7, h7]; decide
  rw [if_neg h7]
  by_cases h8 : code = "zh".data
  · rw [if_pos h8, h8]; decide
  rw [if_neg h8]
  by_cases h9 : code = "ja".data
  · rw [if_pos h9, h9]; decide
  rw [if_neg h9]
  by_cases h10 : code = "ko".data
  · rw [if_pos h10, h10]; decide
  rw [if_neg h10]
  by_cases h11 : code = "ar".data
  · rw [if_pos h11, h11]; decide
  rw [if_neg h11]
  by_cases h12 : code = "hi".data
  · rw [if_pos h12, h12]; decide
  rw [if_neg h12]
  by_cases h13 : code = "nl".data
  · rw [if_pos h13, h13]; decide
  rw [if_neg h13]
  by_cases h14 : code = "pl".data
  · rw [if_pos h14, h14]; decide
  rw [if_neg h14]
  by_cases h15 : code = "sv".data
  · rw [if_pos h15, h15]; decide
  rw [if_neg h15]
  by_cases h16 : code = "da".data
  · rw [if_pos h16, h16]; decide
  rw [if_neg h16]
  by_cases h17 : code = "no".data
  · rw [if_pos h17, h17]; decide
  rw [if_neg h17]
  by_cases h18 : code = "fi".data
  · rw [if_pos h18, h18]; decide
  rw [if_neg h18]

theorem optCost_some (v : List Char) : optCost (some v) = countBr v := rfl

theorem optCost_prosodyVolumeMap (v : List Char) : optCost (prosodyVolumeMap v) = 0 := by
  unfold prosodyVolumeMap
  repeat' split
  all_goals decide

theorem optCost_prosodyRateMap (v : List Char) : optCost (prosodyRateMap v) = 0 := by
  unfold prosodyRateMap
  repeat' split
  all_goals decide

theorem optCost_prosodyPitchMap (v : List Char) : optCost (prosodyPitchMap v) = 0 := by
  unfold prosodyPitchMap
  repeat' split
  all_goals decide

theorem countBr_pvMap_getD (v : List Char) : countBr ((prosodyVolumeMap v).getD v) ≤ countBr v := by
  cases hm : prosodyVolumeMap v with
  | none => simp
  | some w =>
    have h0 := optCost_prosodyVolumeMap v
    rw [hm] at h0
    simp only [optCost] at h0
    simp [h0]

theorem countBr_prMap_getD (v : List Char) : countBr ((prosodyRateMap v).getD v) ≤ countBr v := by
  cases hm : prosodyRateMap v with
  | none => simp
  | some w =>
    have h0 := optCost_prosodyRateMap v
    rw [hm] at h0
    simp only [optCost] at h0
    simp [h0]

theorem countBr_ppMap_getD (v : List Char) : countBr ((prosodyPitchMap v).getD v) ≤ countBr v := by
  cases hm : prosodyPitchMap v with
  | none => simp
  | some w =>
    have h0 := optCost_prosodyPitchMap v
    rw [hm] at h0
    simp only [optCost] at h0
    simp [h0]

theorem prosodyAttrParse_cost (t : List Char) (attr : Char) (rest : List Char)
    (h : prosodyAttrParse t = some (attr, rest)) : countBr rest ≤ countBr t := by
  unfold prosodyAttrParse at h
  split at h
  next r =>
    simp only [Option.some_inj, Prod.mk.injEq] at h
    obtain ⟨_, h2⟩ := h
    subst h2
    simp only [countBr_cons]
    omega
  next r =>
    simp only [Option.some_inj, Prod.mk.injEq] at h
    obtain ⟨_, h2⟩ := h
    subst h2
    simp only [countBr_cons]
    omega
  next r =>
    simp only [Option.some_inj, Prod.mk.injEq] at h
    obtain ⟨_, h2⟩ := h
    subst h2
    simp only [countBr_cons]
    omega
  next =>
    split at h
    · simp only [Option.some_inj, Prod.mk.injEq] at h
      obtain ⟨_, h2⟩ := h
      subst h2
      exact countBr_drop_le _ _
    · split at h
      · simp only [Option.some_inj, Prod.mk.injEq] at h
        obtain ⟨_, h2⟩ := h
        subst h2
        exact countBr_drop_le _ _
      · split at h
        · simp only [Option.some_inj, Prod.mk.injEq] at h
          obtain ⟨_, h2⟩ := h
          subst h2
          exact countBr_drop_le _ _
        · cases h

theorem optCost_none : optCost none = 0 := rfl

theorem tryProsodyAnn_cost (s : List Char) (a : Annot) (h : tryProsodyAnn s = some a) :
    annCost a ≤ countBr s := by
  unfold tryProsodyAnn at h
  dsimp only at h
  split at h
  next a1 heq =>
    cases h
    split at heq
    · split at heq
      · cases heq
        simp only [annCost]
        rcases h1 : (((stripWs s).drop 4).dropWhile isWsChar |>.takeWhile isDigitChar).head? with _ | c1 <;>
          rcases h2 : ((((stripWs s).drop 4).dropWhile isWsChar |>.takeWhile isDigitChar).drop 1).head? with _ | c2 <;>
            rcases h3 : ((((stripWs s).drop 4).dropWhile isWsChar |>.takeWhile isDigitChar).drop 2).head? with _ | c3 <;>
              simp only [optCost_none, optCost_prosodyVolumeMap, optCost_prosodyRateMap,
                optCost_prosodyPitchMap] <;> omega
      · cases heq
    · cases heq
  next heq =>
    split at h
    · cases h
    next attr rest heq2 =>
      split at h
      · cases h
      · have hrest : countBr rest ≤ countBr (stripWs s) := prosodyAttrParse_cost _ _ _ heq2
        have hv : countBr (stripWs (rest.dropWhile isWsChar)) ≤ countBr rest :=
          le_trans (countBr_stripWs_le _) (countBr_dropWhile_le _ _)
        have hs : countBr (stripWs s) ≤ countBr s := countBr_stripWs_le s
        have hg1 := countBr_pvMap_getD (stripWs (rest.dropWhile isWsChar))
        have hg2 := countBr_prMap_getD (stripWs (rest.dropWhile isWsChar))
        have hg3 := countBr_ppMap_getD (stripWs (rest.dropWhile isWsChar))
        split at h
        · cases h
          simp only [annCost, optCost_none]
          split <;> simp only [optCost] <;> omega
        · split at h
          · cases h
            simp only [annCost, optCost_none]
            split <;> simp only [optCost] <;> omega
          · cases h
            simp only [annCost, optCost_none]
            split <;> simp only [optCost] <;> omega

theorem sayAsFormatPart_cost (r fmt r2 : List Char)
    (h : sayAsFormatPart r = some (fmt, r2)) : countBr fmt ≤ countBr r := by
  unfold sayAsFormatPart at h
  split at h
  next r1 heq =>
    dsimp only at h
    split at h
    · split at h
      · cases h
      · simp only [Option.some_inj, Prod.mk.injEq] at h
        obtain ⟨h1, _⟩ := h
        subst h1
        have hr1 : countBr r1 ≤ countBr r := by
          have hd : countBr (r.dropWhile isWsChar) ≤ countBr r := countBr_dropWhile_le _ _
          rw [heq, countBr_cons] at hd
          omega
        have hr3 : countBr (((r1.dropWhile isWsChar).drop 7).dropWhile isWsChar) ≤ countBr r1 :=
          le_trans (countBr_dropWhile_le _ _)
            (le_trans (countBr_drop_le _ _) (countBr_dropWhile_le _ _))
        refine le_trans ?_ (le_trans hr3 hr1)
        split
        next rr heq3 =>
          have : countBr rr ≤ countBr (((r1.dropWhile isWsChar).drop 7).dropWhile isWsChar) := by
            rw [heq3, countBr_cons]
            omega
          exact le_trans (countBr_takeWhile_le _ _) this
        next rr heq3 =>
          have : countBr rr ≤ countBr (((r1.dropWhile isWsChar).drop 7).dropWhile isWsChar) := by
            rw [heq3, countBr_cons]
            omega
          exact le_trans (countBr_takeWhile_le _ _) this
        next =>
          exact countBr_takeWhile_le _ _
    · cases h
  next => cases h

theorem sayAsDetailEnd_zero (r : List Char) (d : Option (List Char))
    (h : sayAsDetailEnd r = some d) : optCost (d.map stripWs) = 0 := by
  unfold sayAsDetailEnd at h
  dsimp only at h
  split at h
  next d1 heq =>
    cases h
    split at heq
    next r1 heq2 =>
      split at heq
      · split at heq
        · cases heq
        · cases heq
          simp only [Option.map_some', optCost]
          have h0 : countBr ((((r1.dropWhile isWsChar).drop 7).dropWhile isWsChar).takeWhile isDigitChar) = 0 :=
            countBr_takeWhile_zero _ (by decide) _
          have := countBr_stripWs_le
            ((((r1.dropWhile isWsChar).drop 7).dropWhile isWsChar).takeWhile isDigitChar)
          omega
      · cases heq
    next => cases heq
  next heq =>
    split at h
    · cases h
      rfl
    · cases h

theorem trySayAs_cost (s : List Char) (a : Annot) (h : trySayAs s = some a) :
    annCost a ≤ countBr s := by
  unfold trySayAs at h
  dsimp only at h
  split at h
  · split at h
    · cases h
    · have hw0 : countBr ((((stripWs s).drop 3).dropWhile isWsChar).takeWhile isWordChar) = 0 :=
        countBr_takeWhile_zero _ (by decide) _
      have hr : countBr (((stripWs s).drop 3).dropWhile isWsChar) ≤ countBr s := countBr_dwd_le s 3
      have hr1 : countBr ((((stripWs s).drop 3).dropWhile isWsChar).drop
          ((((stripWs s).drop 3).dropWhile isWsChar).takeWhile isWordChar).length) ≤ countBr s :=
        le_trans (countBr_drop_le _ _) hr
      split at h
      next fmt r2 heqf =>
        split at h
        next d heqd =>
          cases h
          have hfmt := sayAsFormatPart_cost _ _ _ heqf
          have hd0 := sayAsDetailEnd_zero _ _ heqd
          simp only [annCost, optCost_some, hd0]
          have hsf : countBr (stripWs fmt) ≤ countBr fmt := countBr_stripWs_le fmt
          omega
        next heqd =>
          split at h
          next d heqd2 =>
            cases h
            have hd0 := sayAsDetailEnd_zero _ _ heqd2
            simp only [annCost, optCost_none, hd0]
            omega
          next => cases h
      next heqf =>
        split at h
        next d heqd2 =>
          cases h
          have hd0 := sayAsDetailEnd_zero _ _ heqd2
          simp only [annCost, optCost_none, hd0]
          omega
        next => cases h
  · cases h

theorem countBr_reverse (l : List Char) : countBr l.reverse = countBr l :=
  (List.reverse_perm l).countP_eq _

theorem countBr_takeWhile_add_drop (P : Char → Bool) (cs : List Char) :
    countBr (cs.takeWhile P) + countBr (cs.drop (cs.takeWhile P).length) = countBr cs := by
  obtain ⟨t, ht⟩ := List.takeWhile_prefix (p := P) (l := cs)
  have hd := List.drop_left (cs.takeWhile P) t
  rw [ht] at hd
  rw [hd, ← countBr_append, ht]

theorem scanFirst_decomp {α : Type} (f : List Char → Option α) :
    ∀ text pre a, scanFirst f text = some (pre, a) →
      ∃ suf, text = pre ++ suf ∧ f suf = some a := by
  intro text
  induction text with
  | nil =>
    intro pre a h
    simp only [scanFirst, Option.map_eq_some'] at h
    obtain ⟨x, hx, he⟩ := h
    simp only [Prod.mk.injEq] at he
    obtain ⟨he1, he2⟩ := he
    subst he1; subst he2
    exact ⟨[], rfl, hx⟩
  | cons c rest ih =>
    intro pre a h
    unfold scanFirst at h
    cases hf : f (c :: rest) with
    | some b =>
      rw [hf] at h
      simp only [Option.some_inj, Prod.mk.injEq] at h
      obtain ⟨h1, h2⟩ := h
      subst h1; subst h2
      exact ⟨c :: rest, rfl, hf⟩
    | none =>
      rw [hf] at h
      cases hs : scanFirst f rest with
      | some pa =>
        rw [hs] at h
        obtain ⟨p1, a1⟩ := pa
        simp only [Option.some_inj, Prod.mk.injEq] at h
        obtain ⟨h1, h2⟩ := h
        subst h1; subst h2
        obtain ⟨suf, hsuf, hfsuf⟩ := ih p1 a1 hs
        exact ⟨suf, by rw [List.cons_append, ← hsuf], hfsuf⟩
      | none => rw [hs] at h; cases h

theorem matchDecimalNum_cost (cs n r : List Char) (h : matchDecimalNum cs = some (n, r)) :
    countBr n = 0 ∧ countBr r ≤ countBr cs := by
  unfold matchDecimalNum at h
  dsimp only at h
  split at h
  · cases h
  · split at h
    next more heq =>
      split at h
      · simp only [Option.some_inj, Prod.mk.injEq] at h
        obtain ⟨h1, h2⟩ := h
        subst h1; subst h2
        exact ⟨countBr_takeWhile_zero _ (by decide) _, countBr_drop_le _ _⟩
      · simp only [Option.some_inj, Prod.mk.injEq] at h
        obtain ⟨h1, h2⟩ := h
        subst h1; subst h2
        constructor
        · rw [countBr_append, countBr_cons]
          rw [countBr_takeWhile_zero _ (by decide), countBr_takeWhile_zero _ (by decide)]
          decide
        · have h1 : countBr (more.drop (more.takeWhile isDigitChar).length) ≤ countBr more :=
            countBr_drop_le _ _
          have h2 : countBr ('.' :: more) ≤ countBr cs := by
            rw [← heq]
            exact countBr_drop_le _ _
          rw [countBr_cons] at h2
          omega
    next heq =>
      simp only [Option.some_inj, Prod.mk.injEq] at h
      obtain ⟨h1, h2⟩ := h
      subst h1; subst h2
      exact ⟨countBr_takeWhile_zero _ (by decide) _, countBr_drop_le _ _⟩

theorem matchClipTime_cost (cs n r : List Char) (h : matchClipTime cs = some (n, r)) :
    countBr n = 0 ∧ countBr r ≤ countBr cs := by
  have e1 : countBr (List.takeWhile isDigitChar cs) = 0 := countBr_takeWhile_zero _ (by decide) _
  unfold matchClipTime at h
  dsimp only at h
  split at h
  · cases h
  · split at h
    next more heq =>
      have e2 : countBr (List.takeWhile isDigitChar more) = 0 :=
        countBr_takeWhile_zero _ (by decide) _
      have hmore : countBr ('.' :: more) ≤ countBr cs := by
        rw [← heq]; exact countBr_drop_le _ _
      rw [countBr_cons] at hmore
      split at h
      · split at h
        next u r2 hequ =>
          split at h
          · simp only [Option.some_inj, Prod.mk.injEq] at h
            obtain ⟨h1, h2⟩ := h
            subst h1; subst h2
            constructor
            · rename_i hu
              simp only [Bool.or_eq_true, decide_eq_true_eq] at hu
              rcases hu with hu' | hu' <;> subst hu' <;>
                simp only [countBr_append, countBr_cons, e1] <;> decide
            · have h9 : countBr (u :: r2) ≤ countBr cs := by
                rw [← hequ]; exact countBr_drop_le _ _
              rw [countBr_cons] at h9
              omega
          · cases h
        next => cases h
      · split at h
        next u r3 hequ =>
          split at h
          · simp only [Option.some_inj, Prod.mk.injEq] at h
            obtain ⟨h1, h2⟩ := h
            subst h1; subst h2
            constructor
            · rename_i hu
              simp only [Bool.or_eq_true, decide_eq_true_eq] at hu
              rcases hu with hu' | hu' <;> subst hu' <;>
                simp only [countBr_append, countBr_cons, e1, e2] <;> decide
            · have hdm : countBr (u :: r3) ≤ countBr more := by
                rw [← hequ]; exact countBr_drop_le _ _
              rw [countBr_cons] at hdm
              omega
          · cases h
        next => cases h
    next u r2 hne heq =>
      split at h
      · simp only [Option.some_inj, Prod.mk.injEq] at h
        obtain ⟨h1, h2⟩ := h
        subst h1; subst h2
        constructor
        · rename_i hu
          simp only [Bool.or_eq_true, decide_eq_true_eq] at hu
          rcases hu with hu' | hu' <;> subst hu' <;>
            simp only [countBr_append, countBr_cons, e1] <;> decide
        · have h9 : countBr (u :: r2) ≤ countBr cs := by
            rw [← heq]; exact countBr_drop_le _ _
          rw [countBr_cons] at h9
          omega
      · cases h
    next => cases h

theorem tryClipAt_cost (cs t1 t2 r2 : List Char)
    (h : tryClipAt cs = some ((t1, t2), r2)) :
    countBr t1 = 0 ∧ countBr t2 = 0 ∧ countBr r2 ≤ countBr cs := by
  have hr0 : countBr ((cs.drop 5).dropWhile isWsChar) ≤ countBr cs :=
    le_trans (countBr_dropWhile_le _ _) (countBr_drop_le _ _)
  unfold tryClipAt at h
  split at h
  · dsimp only at h
    split at h
    next t1' r1 heq1 =>
      split at h
      next t2' r2' heq2 =>
        simp only [Option.some_inj, Prod.mk.injEq] at h
        obtain ⟨⟨ha, hb⟩, hc⟩ := h
        subst ha; subst hb; subst hc
        obtain ⟨z1, hle1⟩ := matchClipTime_cost _ _ _ heq1
        obtain ⟨z2, hle2⟩ := matchClipTime_cost _ _ _ heq2
        rw [countBr_cons] at hle1
        exact ⟨z1, z2, by omega⟩
      next => cases h
    next => cases h
  · cases h

theorem trySpeedAt_cost (cs v r : List Char) (h : trySpeedAt cs = some (v, r)) :
    countBr v = 0 ∧ countBr r ≤ countBr cs := by
  have hr0 : countBr ((cs.drop 6).dropWhile isWsChar) ≤ countBr cs :=
    le_trans (countBr_dropWhile_le _ _) (countBr_drop_le _ _)
  unfold trySpeedAt at h
  split at h
  · dsimp only at h
    split at h
    next n r1 heq =>
      simp only [Option.some_inj, Prod.mk.injEq] at h
      obtain ⟨ha, hb⟩ := h
      subst ha; subst hb
      obtain ⟨z1, hle1⟩ := matchDecimalNum_cost _ _ _ heq
      rw [countBr_cons] at hle1
      constructor
      · rw [countBr_append, z1]; decide
      · omega
    next => cases h
  · cases h

theorem tryRepeatAt_cost (cs v r : List Char) (h : tryRepeatAt cs = some (v, r)) :
    countBr v = 0 ∧ countBr r ≤ countBr cs := by
  have hr0 : countBr ((cs.drop 7).dropWhile isWsChar) ≤ countBr cs :=
    le_trans (countBr_dropWhile_le _ _) (countBr_drop_le _ _)
  unfold tryRepeatAt at h
  split at h
  · dsimp only at h
    split at h
    · cases h
    · simp only [Option.some_inj, Prod.mk.injEq] at h
      obtain ⟨ha, hb⟩ := h
      subst ha; subst hb
      refine ⟨countBr_takeWhile_zero _ (by decide) _, ?_⟩
      exact le_trans (countBr_drop_le _ _) hr0
  · cases h

theorem levelSign_cost (r0 : List Char) :
    countBr (levelSign r0).1 = 0 ∧ countBr (levelSign r0).2 ≤ countBr r0 := by
  unfold levelSign
  split <;> dsimp only
  · rename_i r
    refine ⟨by decide, ?_⟩
    rw [countBr_cons]
    omega
  · rename_i r
    refine ⟨by decide, ?_⟩
    rw [countBr_cons]
    omega
  · exact ⟨by decide, Nat.le_refl _⟩

theorem tryLevelAt_cost (cs v r : List Char) (h : tryLevelAt cs = some (v, r)) :
    countBr v = 0 ∧ countBr r ≤ countBr cs := by
  have hr0 : countBr ((cs.drop 6).dropWhile isWsChar) ≤ countBr cs :=
    le_trans (countBr_dropWhile_le _ _) (countBr_drop_le _ _)
  unfold tryLevelAt at h
  split at h
  · dsimp only at h
    split at h
    · rename_i n rr heqn
      simp only [Option.some_inj, Prod.mk.injEq] at h
      obtain ⟨ha, hb⟩ := h
      subst ha; subst hb
      obtain ⟨z1, hle1⟩ := matchDecimalNum_cost _ _ _ heqn
      rw [countBr_cons, countBr_cons] at hle1
      obtain ⟨zs, hsr⟩ := levelSign_cost ((cs.drop 6).dropWhile isWsChar)
      constructor
      · rw [countBr_append, countBr_append, z1, zs]; decide
      · omega
    · cases h
  · cases h

theorem tryDoubleCommaAt_le (cs after : List Char) (h : tryDoubleCommaAt cs = some after) :
    countBr after ≤ countBr cs := by
  unfold tryDoubleCommaAt at h
  split at h
  next r1 heq1 =>
    split at h
    next r2 heq2 =>
      cases h
      have e1 : countBr (cs.dropWhile isWsChar) = countBr (',' :: r1) := by rw [heq1]
      have e2 : countBr (r1.dropWhile isWsChar) = countBr (',' :: r2) := by rw [heq2]
      rw [countBr_cons] at e1 e2
      have d0 : countBr (cs.dropWhile isWsChar) ≤ countBr cs := countBr_dropWhile_le _ _
      have d1 : countBr (r1.dropWhile isWsChar) ≤ countBr r1 := countBr_dropWhile_le _ _
      have d2 : countBr (r2.dropWhile isWsChar) ≤ countBr r2 := countBr_dropWhile_le _ _
      omega
    next => cases h
  next => cases h

theorem subAllFuel_le (tryAt : List Char → Option (List Char)) (repl : List Char)
    (hT : ∀ cs after, tryAt cs = some after → countBr after ≤ countBr cs)
    (hR : countBr repl = 0) :
    ∀ fuel cs, countBr (subAllFuel tryAt repl fuel cs) ≤ countBr cs := by
  intro fuel
  induction fuel with
  | zero =>
    intro cs
    cases cs with
    | nil => exact Nat.le_refl _
    | cons c rest => exact Nat.le_refl _
  | succ n ih =>
    intro cs
    cases cs with
    | nil => exact Nat.le_refl _
    | cons c rest =>
      rw [show subAllFuel tryAt repl (n + 1) (c :: rest) =
        (match tryAt (c :: rest) with
          | some after =>
            if after.length < (c :: rest).length then
              repl ++ subAllFuel tryAt repl n after
            else
              c :: subAllFuel tryAt repl n rest
          | none => c :: subAllFuel tryAt repl n rest) from rfl]
      cases hf : tryAt (c :: rest) with
      | some after =>
        dsimp only
        split
        · rw [countBr_append, hR]
          have := hT _ _ hf
          have h2 := ih after
          omega
        · rw [countBr_cons, countBr_cons]
          have := ih rest
          omega
      | none =>
        dsimp only
        rw [countBr_cons, countBr_cons]
        have := ih rest
        omega

theorem countBr_commaHead_le (t : List Char) :
    countBr (match t with | ',' :: r => List.dropWhile isWsChar r | other => other) ≤
      countBr t := by
  split
  next r =>
    rw [countBr_cons]
    have := countBr_dropWhile_le isWsChar r
    omega
  next => exact Nat.le_refl _

theorem countBr_commaTail_le (t : List Char) :
    countBr (stripWs (match List.dropWhile isWsChar t.reverse with
      | ',' :: r => r.reverse | _ => t)) ≤ countBr t := by
  refine le_trans (countBr_stripWs_le _) ?_
  split
  next r heq =>
    have e1 : countBr (List.dropWhile isWsChar t.reverse) = countBr (',' :: r) := by rw [heq]
    rw [countBr_cons] at e1
    have d1 : countBr (List.dropWhile isWsChar t.reverse) ≤ countBr t.reverse :=
      countBr_dropWhile_le _ _
    rw [countBr_reverse] at d1
    rw [countBr_reverse]
    omega
  next => exact Nat.le_refl _

theorem countBr_audioAltCleanup_le (cs : List Char) :
    countBr (audioAltCleanup cs) ≤ countBr cs := by
  unfold audioAltCleanup
  dsimp only
  refine le_trans (countBr_commaTail_le _) ?_
  refine le_trans (countBr_commaHead_le _) ?_
  refine le_trans (subAllFuel_le tryDoubleCommaAt ", ".data tryDoubleCommaAt_le (by decide) _ _) ?_
  exact countBr_le_of_sublist (stripAround_sublist _ cs)

theorem attrStep_le {β : Type} (tryAt : List Char → Option (β × List Char))
    (hT : ∀ cs v post, tryAt cs = some (v, post) → countBr post ≤ countBr cs)
    (r : List Char) : countBr (attrStep tryAt r).2 ≤ countBr r := by
  unfold attrStep
  cases hs : scanFirst tryAt r with
  | none => exact Nat.le_refl _
  | some pa =>
    obtain ⟨pre, v, post⟩ := pa
    dsimp only
    obtain ⟨suf, hsuf, hfsuf⟩ := scanFirst_decomp _ _ _ _ hs
    have h1 := hT _ _ _ hfsuf
    have h2 : countBr r = countBr pre + countBr suf := by rw [hsuf, countBr_append]
    rw [countBr_append]
    omega

theorem attrStep_val_zero (tryAt : List Char → Option (List Char × List Char))
    (hT : ∀ cs v post, tryAt cs = some (v, post) → countBr v = 0)
    (r : List Char) : optCost (attrStep tryAt r).1 = 0 := by
  unfold attrStep
  cases hs : scanFirst tryAt r with
  | none => rfl
  | some pa =>
    obtain ⟨pre, v, post⟩ := pa
    dsimp only
    rw [optCost_some]
    obtain ⟨suf, _, hfsuf⟩ := scanFirst_decomp _ _ _ _ hs
    exact hT _ _ _ hfsuf

theorem attrStep_clipB_zero (r : List Char) :
    optCost ((attrStep tryClipAt r).1.map Prod.fst) = 0 := by
  unfold attrStep
  cases hs : scanFirst tryClipAt r with
  | none => rfl
  | some pa =>
    obtain ⟨pre, ⟨t1, t2⟩, post⟩ := pa
    dsimp only
    rw [Option.map_some', optCost_some]
    obtain ⟨suf, _, hfsuf⟩ := scanFirst_decomp _ _ _ _ hs
    exact (tryClipAt_cost _ _ _ _ hfsuf).1

theorem attrStep_clipE_zero (r : List Char) :
    optCost ((attrStep tryClipAt r).1.map Prod.snd) = 0 := by
  unfold attrStep
  cases hs : scanFirst tryClipAt r with
  | none => rfl
  | some pa =>
    obtain ⟨pre, ⟨t1, t2⟩, post⟩ := pa
    dsimp only
    rw [Option.map_some', optCost_some]
    obtain ⟨suf, _, hfsuf⟩ := scanFirst_decomp _ _ _ _ hs
    exact (tryClipAt_cost _ _ _ _ hfsuf).2.1

theorem tryAudio_cost (s : List Char) (a : Annot) (h : tryAudio s = some a) :
    annCost a ≤ countBr s := by
  unfold tryAudio at h
  dsimp only at h
  split at h
  · split at h
    · cases h
    next attrsAlt heq =>
      cases h
      simp only [annCost]
      have hclipT : ∀ cs v post, tryClipAt cs = some (v, post) → countBr post ≤ countBr cs := by
        intro cs v post hc
        obtain ⟨v1, v2⟩ := v
        exact (tryClipAt_cost cs v1 v2 post hc).2.2
      have hspT : ∀ cs v post, trySpeedAt cs = some (v, post) → countBr post ≤ countBr cs :=
        fun cs v post hc => (trySpeedAt_cost cs v post hc).2
      have hrpT : ∀ cs v post, tryRepeatAt cs = some (v, post) → countBr post ≤ countBr cs :=
        fun cs v post hc => (tryRepeatAt_cost cs v post hc).2
      have hlvT : ∀ cs v post, tryLevelAt cs = some (v, post) → countBr post ≤ countBr cs :=
        fun cs v post hc => (tryLevelAt_cost cs v post hc).2
      have z1 := attrStep_clipB_zero (stripWs attrsAlt)
      have z2 := attrStep_clipE_zero (stripWs attrsAlt)
      have z3 := attrStep_val_zero trySpeedAt
        (fun cs v post hc => (trySpeedAt_cost cs v post hc).1)
        (attrStep tryClipAt (stripWs attrsAlt)).2
      have z4 := attrStep_val_zero tryRepeatAt
        (fun cs v post hc => (tryRepeatAt_cost cs v post hc).1)
        (attrStep trySpeedAt (attrStep tryClipAt (stripWs attrsAlt)).2).2
      have z5 := attrStep_val_zero tryLevelAt
        (fun cs v post hc => (tryLevelAt_cost cs v post hc).1)
        (attrStep tryRepeatAt
          (attrStep trySpeedAt (attrStep tryClipAt (stripWs attrsAlt)).2).2).2
      have b1 := attrStep_le tryClipAt hclipT (stripWs attrsAlt)
      have b2 := attrStep_le trySpeedAt hspT (attrStep tryClipAt (stripWs attrsAlt)).2
      have b3 := attrStep_le tryRepeatAt hrpT
        (attrStep trySpeedAt (attrStep tryClipAt (stripWs attrsAlt)).2).2
      have b4 := attrStep_le tryLevelAt hlvT
        (attrStep tryRepeatAt
          (attrStep trySpeedAt (attrStep tryClipAt (stripWs attrsAlt)).2).2).2
      have balt := countBr_audioAltCleanup_le
        (attrStep tryLevelAt
          (attrStep tryRepeatAt
            (attrStep trySpeedAt (attrStep tryClipAt (stripWs attrsAlt)).2).2).2).2
      have bstrip := countBr_stripWs_le
        (audioAltCleanup
          (attrStep tryLevelAt
            (attrStep tryRepeatAt
              (attrStep trySpeedAt (attrStep tryClipAt (stripWs attrsAlt)).2).2).2).2)
      have ha0 : countBr (stripWs attrsAlt) ≤ countBr attrsAlt := countBr_stripWs_le _
      have hwrest := countBr_takeWhile_add_drop (fun c => !isWsChar c) (stripWs s)
      have hstrips : countBr (stripWs s) ≤ countBr s := countBr_stripWs_le s
      have hattrs : countBr attrsAlt ≤
          countBr ((stripWs s).drop
            ((stripWs s).takeWhile (fun c => !isWsChar c)).length) := by
        split at heq
        · cases heq
          rw [countBr_nil]
          exact Nat.zero_le _
        · split at heq
          · cases heq
          · cases heq
            exact countBr_dropWhile_le _ _
      omega
  · cases h

theorem tryLangAnn_cost (s : List Char) (a : Annot) (h : tryLangAnn s = some a) :
    annCost a ≤ countBr s := by
  unfold tryLangAnn at h
  dsimp only at h
  split at h
  · cases h
    simp only [annCost]
    have h1 := langDefaults_cost (((stripWs s).drop 5).dropWhile isWsChar)
    have h2 := countBr_dwd_le s 5
    omega
  · split at h
    · cases h
      simp only [annCost]
      have h1 := langDefaults_cost (stripWs s)
      have h2 := countBr_stripWs_le s
      omega
    · cases h

theorem getAnnot_cost (p : List Char) (a : Annot) (h : getAnnot p = some a) :
    annCost a ≤ countBr p := by
  simp only [getAnnot, annotTryers, firstAnnot] at h
  split at h
  next a1 heq => cases h; exact tryAudio_cost _ _ heq
  next =>
    split at h
    next a1 heq => cases h; exact tryExt_cost _ _ heq
    next =>
      split at h
      next a1 heq => cases h; exact tryVoiceAnn_cost _ _ heq
      next =>
        split at h
        next a1 heq => cases h; exact trySayAs_cost _ _ heq
        next =>
          split at h
          next a1 heq => cases h; exact tryPhoneme_cost _ _ heq
          next =>
            split at h
            next a1 heq => cases h; exact tryProsodyAnn_cost _ _ heq
            next =>
              split at h
              next a1 heq => cases h; exact trySubAnn_cost _ _ heq
              next =>
                split at h
                next a1 heq => cases h; exact tryLangAnn_cost _ _ heq
                next => cases h

theorem listAnnCost_buildAnnots_le (caps? : Option Caps) :
    ∀ parts acc, listAnnCost (buildAnnots caps? parts acc) ≤
      listAnnCost acc + listBrCost parts := by
  intro parts
  induction parts with
  | nil =>
    intro acc
    simp [buildAnnots, listBrCost]
  | cons p rest ih =>
    intro acc
    unfold buildAnnots
    cases hg : getAnnot p with
    | none =>
      have h1 := ih acc
      simp only [listBrCost, List.map_cons, List.sum_cons] at *
      omega
    | some ann =>
      dsimp only
      split
      · have h1 := ih (insertAnnot acc ann)
        have h2 := listAnnCost_insert_le acc ann
        have h3 : annCost ann ≤ countBr p := getAnnot_cost p ann hg
        simp only [listBrCost, List.map_cons, List.sum_cons] at *
        omega
      · have h1 := ih acc
        simp only [listBrCost, List.map_cons, List.sum_cons] at *
        omega

theorem countBr_annotResult_le (caps? : Option Caps) (text params : List Char) :
    countBr (annotResult caps? text params) ≤ countBr text + countBr params := by
  unfold annotResult
  dsimp only
  split
  · split
    · have h1 := countBr_annotWrap_le (voiceFromParams (stripWs params)) text
      have h2 := annCost_voiceFromParams (stripWs params)
      omega
    · omega
  · have h1 := countBr_foldl_wrap_le
      (buildAnnots caps? ((splitOnChar ',' params).map stripWs) []) text
    have h2 := listAnnCost_buildAnnots_le caps? ((splitOnChar ',' params).map stripWs) []
    have h3 := listBrCost_map_stripWs_le (splitOnChar ',' params)
    have h4 := listBrCost_splitOnChar_le ',' params
    have h5 : listAnnCost ([] : List Annot) = 0 := rfl
    omega

theorem countP_twd (q P : Char → Bool) (cs : List Char) :
    List.countP q (cs.takeWhile P) +
      List.countP q (cs.drop (cs.takeWhile P).length) = List.countP q cs := by
  obtain ⟨t, ht⟩ := List.takeWhile_prefix (p := P) (l := cs)
  have hd := List.drop_left (cs.takeWhile P) t
  rw [ht] at hd
  rw [hd, ← List.countP_append, ht]

theorem countP_tw_zero (q P : Char → Bool) (hq : ∀ c, P c = true → q c = false)
    (cs : List Char) : List.countP q (cs.takeWhile P) = 0 := by
  rw [List.countP_eq_zero]
  intro a ha
  simp [hq a (List.mem_takeWhile_imp ha)]

theorem countP_sublist_le (q : Char → Bool) {xs ys : List Char} (h : xs.Sublist ys) :
    List.countP q xs ≤ List.countP q ys :=
  List.Sublist.countP_le _ h

theorem countP_drop_le (q : Char → Bool) (n : Nat) (cs : List Char) :
    List.countP q (cs.drop n) ≤ List.countP q cs :=
  countP_sublist_le q (List.drop_sublist _ _)

theorem countP_dropWhile_le (q P : Char → Bool) (cs : List Char) :
    List.countP q (cs.dropWhile P) ≤ List.countP q cs :=
  countP_sublist_le q (List.dropWhile_sublist _)

theorem countP_drop_drop (q : Char → Bool) (n m : Nat) (cs : List Char) :
    List.countP q ((cs.drop n).drop m) ≤ List.countP q cs :=
  le_trans (countP_drop_le q m _) (countP_drop_le q n cs)

theorem countP_replicate_pos (q : Char → Bool) (c : Char) (hq : q c = true) (n : Nat) :
    List.countP q (List.replicate n c) = n := by
  induction n with
  | zero => rfl
  | succ k ih => rw [List.replicate_succ, List.countP_cons, ih, hq]; simp

theorem drop_add_comm (l : List Char) (n m : Nat) : (l.drop n).drop m = l.drop (n + m) := by
  rw [List.drop_drop, Nat.add_comm]

theorem countEm_append (xs ys : List Char) : countEm (xs ++ ys) = countEm xs + countEm ys := by
  simp [countEm, List.countP_append]

theorem emphasisTryAt_count (pv : Option Char) (cs : List Char) (k : EmKind)
    (content rest : List Char) (h : emphasisTryAt pv cs = some (k, content, rest)) :
    countEm content + countEm rest + 2 ≤ countEm cs := by
  unfold emphasisTryAt at h
  split at h
  next rest1 =>
    dsimp only at h
    split at h
    next hsw1 =>
      split at h
      next hcond =>
        cases h
        obtain ⟨hne, hsw⟩ := Bool.and_eq_true _ _ |>.mp hcond
        unfold countEm
        have hsplit : ('*' :: rest1 : List Char) = "*".data ++ rest1 := rfl
        rw [hsplit, List.countP_append]
        have hb1 : List.countP (fun c => c = '*' || c = '_') "*".data = 1 := by decide
        have hd1 := startsWithL_decomp _ _ hsw1
        have hr1 : List.countP (fun c => c = '*' || c = '_') rest1 =
            List.countP (fun c => c = '*' || c = '_')
              ("*".data ++ rest1.drop ("*".data).length) := by
          rw [← hd1]
        rw [List.countP_append, show ("*".data).length = 1 from rfl] at hr1
        have htw := countP_twd (fun c => c = '*' || c = '_') (fun c => c ≠ '*') (rest1.drop 1)
        have hdec2 := startsWithL_decomp _ _ hsw
        have he : List.countP (fun c => c = '*' || c = '_')
            ((rest1.drop 1).drop ((rest1.drop 1).takeWhile (fun c => c ≠ '*')).length) =
            List.countP (fun c => c = '*' || c = '_')
              ("**".data ++ (((rest1.drop 1).drop
                ((rest1.drop 1).takeWhile (fun c => c ≠ '*')).length).drop
                  ("**".data).length)) := by
          rw [← hdec2]
        rw [List.countP_append, show ("**".data).length = 2 from rfl,
          drop_add_comm (rest1.drop 1)
            ((rest1.drop 1).takeWhile (fun c => c ≠ '*')).length 2] at he
        have hb2 : List.countP (fun c => c = '*' || c = '_') "**".data = 2 := by decide
        omega
      next => cases h
    next hsw1 =>
      split at h
      next hcond =>
        cases h
        obtain ⟨hne, hsw⟩ := Bool.and_eq_true _ _ |>.mp hcond
        unfold countEm
        have hsplit : ('*' :: rest1 : List Char) = "*".data ++ rest1 := rfl
        rw [hsplit, List.countP_append]
        have hb1 : List.countP (fun c => c = '*' || c = '_') "*".data = 1 := by decide
        have htw := countP_twd (fun c => c = '*' || c = '_') (fun c => c ≠ '*') rest1
        have hdec2 := startsWithL_decomp _ _ hsw
        have he : List.countP (fun c => c = '*' || c = '_')
            (rest1.drop (rest1.takeWhile (fun c => c ≠ '*')).length) =
            List.countP (fun c => c = '*' || c = '_')
              ("*".data ++ ((rest1.drop
                (rest1.takeWhile (fun c => c ≠ '*')).length).drop ("*".data).length)) := by
          rw [← hdec2]
        rw [List.countP_append, show ("*".data).length = 1 from rfl,
          drop_add_comm rest1 (rest1.takeWhile (fun c => c ≠ '*')).length 1] at he
        omega
      next => cases h
  next rest0 =>
    split at h
    · cases h
    · dsimp only at h
      split at h
      · cases h
      · split at h
        next after heq =>
          split at h
          · cases h
          · cases h
            unfold countEm
            have hsplit : ('_' :: rest0 : List Char) = "_".data ++ rest0 := rfl
            rw [hsplit, List.countP_append]
            have hb1 : List.countP (fun c => c = '*' || c = '_') "_".data = 1 := by decide
            have htw := countP_twd (fun c => c = '*' || c = '_') (fun c => c ≠ '_') rest0
            have he : List.countP (fun c => c = '*' || c = '_')
                (rest0.drop (rest0.takeWhile (fun c => c ≠ '_')).length) =
                List.countP (fun c => c = '*' || c = '_') ("_".data ++ rest) := by
              rw [heq]
              rfl
            rw [List.countP_append] at he
            omega
        next => cases h
  next => cases h

theorem countEm_emphasisResult (k : EmKind) (content : List Char) :
    countEm (emphasisResult k content) = countEm content := by
  cases k <;>
    · unfold emphasisResult countEm
      rw [List.countP_append, List.countP_append]
      have e1 : List.countP (fun c => c = '*' || c = '_')
          "</emphasis>".data = 0 := by decide
      first
        | (have e2 : List.countP (fun c => c = '*' || c = '_')
            "<emphasis level=\"strong\">".data = 0 := by decide
           omega)
        | (have e2 : List.countP (fun c => c = '*' || c = '_')
            "<emphasis>".data = 0 := by decide
           omega)
        | (have e2 : List.countP (fun c => c = '*' || c = '_')
            "<emphasis level=\"reduced\">".data = 0 := by decide
           omega)

theorem emphasisSubst_dec (text pre : List Char) (k : EmKind) (content rest : List Char)
    (h : emphasisSearch text = some (pre, (k, content, rest))) :
    countEm (emphasisSubst text) < countEm text := by
  obtain ⟨pv, cs, hcs, hf⟩ := scanPrev_decomp emphasisTryAt text none pre (k, content, rest) h
  have hc := emphasisTryAt_count pv cs k content rest hf
  unfold emphasisSubst
  rw [h]
  subst hcs
  rw [countEm_append, countEm_append, countEm_append, countEm_emphasisResult]
  omega

theorem emphasisStrip_dec (text pre : List Char) (k : EmKind) (content rest : List Char)
    (h : emphasisSearch text = some (pre, (k, content, rest))) :
    countEm (emphasisStrip text) < countEm text := by
  obtain ⟨pv, cs, hcs, hf⟩ := scanPrev_decomp emphasisTryAt text none pre (k, content, rest) h
  have hc := emphasisTryAt_count pv cs k content rest hf
  unfold emphasisStrip
  rw [h]
  subst hcs
  rw [countEm_append, countEm_append, countEm_append]
  omega

theorem countAt_append (xs ys : List Char) : countAt (xs ++ ys) = countAt xs + countAt ys := by
  simp [countAt, List.countP_append]

theorem countDot_append (xs ys : List Char) : countDot (xs ++ ys) = countDot xs + countDot ys := by
  simp [countDot, List.countP_append]

theorem countP_noContentGlue_le (q : Char → Bool) (pre post : List Char) :
    List.countP q (noContentGlue pre post) ≤ List.countP q pre + List.countP q post := by
  unfold noContentGlue
  split
  · rw [List.countP_append]
    have := countP_sublist_le q (List.dropLast_sublist pre)
    omega
  · split
    · rw [List.countP_append]
      have := countP_drop_le q 1 post
      omega
    · rw [List.countP_append]

theorem markTryAt_count (cs w rest : List Char) (h : markTryAt cs = some (w, rest)) :
    countAt w = 0 ∧ countAt rest + 1 ≤ countAt cs := by
  unfold markTryAt at h
  split at h
  next rest0 =>
    dsimp only at h
    split at h
    · cases h
    · simp only [Option.some_inj, Prod.mk.injEq] at h
      obtain ⟨h1, h2⟩ := h
      subst h1; subst h2
      have hz : countAt (rest0.takeWhile isWordChar) = 0 := by
        unfold countAt
        refine countP_tw_zero _ _ ?_ _
        intro c hc
        by_cases he : c = '@'
        · rw [he] at hc; exact absurd hc (by decide)
        · simp [he]
      refine ⟨hz, ?_⟩
      have htw := countP_twd (fun c => c = '@') isWordChar rest0
      have hsplit : ('@' :: rest0 : List Char) = "@".data ++ rest0 := rfl
      unfold countAt at *
      rw [hsplit, List.countP_append]
      have hb : List.countP (fun c => c = '@') "@".data = 1 := by decide
      omega
  next => cases h

theorem markSubst_dec (text pre w rest : List Char)
    (h : markSearch text = some (pre, (w, rest))) :
    countAt (markSubst text) < countAt text := by
  obtain ⟨cs, hcs, hf⟩ := scanFirst_decomp markTryAt text pre (w, rest) h
  obtain ⟨hz, hlt⟩ := markTryAt_count cs w rest hf
  unfold markSubst
  rw [h]
  subst hcs
  dsimp only
  simp only [countAt_append]
  have h1 : countAt "<mark name=\"".data = 0 := by decide
  have h2 : countAt "\"/>".data = 0 := by decide
  dsimp only at h1 h2
  omega

theorem markStrip_dec (text pre w rest : List Char)
    (h : markSearch text = some (pre, (w, rest))) :
    countAt (markStrip text) < countAt text := by
  obtain ⟨cs, hcs, hf⟩ := scanFirst_decomp markTryAt text pre (w, rest) h
  obtain ⟨hz, hlt⟩ := markTryAt_count cs w rest hf
  unfold markStrip
  rw [h]
  subst hcs
  dsimp only
  simp only [countAt_append]
  have := countP_noContentGlue_le (fun c => c = '@') pre rest
  unfold countAt at *
  omega

theorem breakUnitParse_count (ds rs m rest : List Char) (hds : countDot ds = 0)
    (h : breakUnitParse ds rs = some (m, rest)) :
    countDot m = 0 ∧ countDot rest ≤ countDot rs := by
  unfold breakUnitParse at h
  split at h
  next r2 =>
    simp only [Option.some_inj, Prod.mk.injEq] at h
    obtain ⟨h1, h2⟩ := h
    subst h1; subst h2
    constructor
    · rw [countDot_append]
      have hx : countDot ['s'] = 0 := by decide
      omega
    · unfold countDot
      rw [List.countP_cons]
      omega
  next r2 =>
    simp only [Option.some_inj, Prod.mk.injEq] at h
    obtain ⟨h1, h2⟩ := h
    subst h1; subst h2
    constructor
    · rw [countDot_append]
      have hx : countDot "ms".data = 0 := by decide
      dsimp only at hx
      omega
    · unfold countDot
      rw [List.countP_cons, List.countP_cons]
      omega
  next => cases h

theorem breakLetterParse_count (r m rest : List Char) (h : breakLetterParse r = some (m, rest)) :
    countDot m = 0 ∧ countDot rest ≤ countDot r := by
  unfold breakLetterParse at h
  split at h
  next c r2 =>
    split at h
    next hc =>
      simp only [Option.some_inj, Prod.mk.injEq] at h
      obtain ⟨h1, h2⟩ := h
      subst h1; subst h2
      constructor
      · unfold countDot
        rw [List.countP_cons]
        have hcd : decide (c = '.') = false := by
          rcases Bool.or_eq_true _ _ |>.mp hc with h' | h'
          · rcases Bool.or_eq_true _ _ |>.mp h' with h'' | h''
            · rcases Bool.or_eq_true _ _ |>.mp h'' with h3 | h3
              · rcases Bool.or_eq_true _ _ |>.mp h3 with h4 | h4 <;>
                  · rw [decide_eq_true_eq] at h4
                    subst h4
                    decide
              · rw [decide_eq_true_eq] at h3
                subst h3
                decide
            · rw [decide_eq_true_eq] at h''
              subst h''
              decide
          · rw [decide_eq_true_eq] at h'
            subst h'
            decide
        rw [hcd]
        rfl
      · unfold countDot
        rw [List.countP_cons]
        omega
    next => cases h
  next => cases h

theorem breakModParse_count (r m rest : List Char) (h : breakModParse r = some (m, rest)) :
    countDot m = 0 ∧ countDot rest ≤ countDot r := by
  unfold breakModParse at h
  dsimp only at h
  split at h
  · have hds : countDot (r.takeWhile isDigitChar) = 0 := by
      unfold countDot
      refine countP_tw_zero _ _ ?_ _
      intro c hc
      by_cases he : c = '.'
      · rw [he] at hc; exact absurd hc (by decide)
      · simp [he]
    obtain ⟨h1, h2⟩ := breakUnitParse_count _ _ _ _ hds h
    refine ⟨h1, le_trans h2 ?_⟩
    unfold countDot
    exact countP_drop_le _ _ _
  · exact breakLetterParse_count r m rest h

theorem breakTryAt_count (cs m rest : List Char) (h : breakTryAt cs = some (m, rest)) :
    countDot m = 0 ∧ countDot rest + 3 ≤ countDot cs := by
  unfold breakTryAt at h
  split at h
  next r =>
    obtain ⟨h1, h2⟩ := breakModParse_count r m rest h
    refine ⟨h1, ?_⟩
    unfold countDot at *
    have hsplit : ('.' :: '.' :: '.' :: r : List Char) = "...".data ++ r := rfl
    rw [hsplit, List.countP_append]
    have hb : List.countP (fun c => c = '.') "...".data = 3 := by decide
    omega
  next => cases h

theorem countDot_breakResult (m : List Char) (hm : countDot m = 0) :
    countDot (breakResult m) = 0 := by
  unfold breakResult
  split
  · decide
  · split
    · decide
    · split
      · decide
      · split
        · decide
        · split
          · decide
          · split
            · rw [countDot_append, countDot_append, hm]
              decide
            · rw [countDot_append, countDot_append, countDot_append, hm]
              decide

theorem breakSubst_dec (text pre m rest : List Char)
    (h : breakSearch text = some (pre, (m, rest))) :
    countDot (breakSubst text) < countDot text := by
  obtain ⟨cs, hcs, hf⟩ := scanFirst_decomp breakTryAt text pre (m, rest) h
  obtain ⟨hz, hlt⟩ := breakTryAt_count cs m rest hf
  unfold breakSubst
  rw [h]
  subst hcs
  rw [countDot_append, countDot_append, countDot_append]
  rw [countDot_breakResult m hz]
  omega

theorem breakStrip_dec (text pre m rest : List Char)
    (h : breakSearch text = some (pre, (m, rest))) :
    countDot (breakStrip text) < countDot text := by
  obtain ⟨cs, hcs, hf⟩ := scanFirst_decomp breakTryAt text pre (m, rest) h
  obtain ⟨hz, hlt⟩ := breakTryAt_count cs m rest hf
  unfold breakStrip
  rw [h]
  subst hcs
  dsimp only
  simp only [countDot_append]
  have := countP_noContentGlue_le (fun c => c = '.') pre rest
  unfold countDot at *
  omega

theorem annTryAt_count (cs txt ps rest : List Char) (h : annTryAt cs = some (txt, ps, rest)) :
    countBr txt + countBr ps + countBr rest + 1 ≤ countBr cs := by
  unfold annTryAt at h
  split at h
  next rest0 =>
    dsimp only at h
    split at h
    · cases h
    · split at h
      next r2 heq2 =>
        split at h
        · cases h
        · split at h
          next r3 heq3 =>
            simp only [Option.some_inj, Prod.mk.injEq] at h
            obtain ⟨h1, h2, h3⟩ := h
            subst h1; subst h2; subst h3
            unfold countBr
            have hsplit : ('[' :: rest0 : List Char) = "[".data ++ rest0 := rfl
            rw [hsplit, List.countP_append]
            have hb : List.countP (fun c => c = '[') "[".data = 1 := by decide
            have htw1 := countP_twd (fun c => c = '[') (fun c => c ≠ ']') rest0
            have he2 : List.countP (fun c => c = '[')
                (rest0.drop (rest0.takeWhile (fun c => c ≠ ']')).length) =
                List.countP (fun c => c = '[') (']' :: '(' :: r2) := by rw [heq2]
            rw [List.countP_cons, List.countP_cons] at he2
            have htw2 := countP_twd (fun c => c = '[') (fun c => c ≠ ')') r2
            have he3 : List.countP (fun c => c = '[')
                (r2.drop (r2.takeWhile (fun c => c ≠ ')')).length) =
                List.countP (fun c => c = '[') (')' :: r3) := by rw [heq3]
            rw [List.countP_cons] at he3
            have hz1 : (if decide (']' = '[') = true then 1 else 0) = 0 := by decide
            have hz2 : (if decide ('(' = '[') = true then 1 else 0) = 0 := by decide
            have hz3 : (if decide (')' = '[') = true then 1 else 0) = 0 := by decide
            omega
          next => cases h
      next => cases h
  next => cases h

theorem annSubst_dec (caps? : Option Caps) (text pre txt ps rest : List Char)
    (h : annSearch text = some (pre, (txt, ps, rest))) :
    countBr (annSubst caps? text) < countBr text := by
  obtain ⟨cs, hcs, hf⟩ := scanFirst_decomp annTryAt text pre (txt, ps, rest) h
  have hc := annTryAt_count cs txt ps rest hf
  have hres := countBr_annotResult_le caps? txt ps
  unfold annSubst annSearch
  rw [show scanFirst annTryAt text = annSearch text from rfl, h]
  subst hcs
  dsimp only
  simp only [countBr_append]
  omega

theorem annStrip_dec (text pre txt ps rest : List Char)
    (h : annSearch text = some (pre, (txt, ps, rest))) :
    countBr (annStrip text) < countBr text := by
  obtain ⟨cs, hcs, hf⟩ := scanFirst_decomp annTryAt text pre (txt, ps, rest) h
  have hc := annTryAt_count cs txt ps rest hf
  unfold annStrip
  rw [h]
  subst hcs
  dsimp only
  simp only [countBr_append]
  omega

theorem countHash_append (xs ys : List Char) :
    countHash (xs ++ ys) = countHash xs + countHash ys := by
  simp [countHash, List.countP_append]

theorem drop_takeWhile_length (P : Char → Bool) :
    ∀ l : List Char, l.drop (l.takeWhile P).length = l.dropWhile P := by
  intro l
  induction l with
  | nil => rfl
  | cons c t ih =>
    by_cases h : P c
    · rw [List.takeWhile_cons_of_pos h, List.dropWhile_cons_of_pos h]
      simpa using ih
    · rw [List.takeWhile_cons_of_neg h, List.dropWhile_cons_of_neg h]
      rfl

theorem tw_append_drop (P : Char → Bool) (l : List Char) :
    l.takeWhile P ++ l.drop (l.takeWhile P).length = l := by
  rw [drop_takeWhile_length]
  exact List.takeWhile_append_dropWhile P l

theorem headingTailParse_decomp (rest w2 content after : List Char)
    (h : headingTailParse rest = some (w2, content, after)) :
    rest = w2 ++ content ++ after ∧ countHash w2 = 0 := by
  unfold headingTailParse at h
  dsimp only at h
  split at h
  next c0 r20 heq =>
    simp only [Option.some_inj, Prod.mk.injEq] at h
    obtain ⟨h1, h2, h3⟩ := h
    subst h1; subst h2; subst h3
    constructor
    · conv_lhs => rw [← tw_append_drop isWsChar rest]
      rw [List.append_assoc]
      congr 1
      conv_lhs => rw [← tw_append_drop (fun c => c ≠ '\n')
        (rest.drop (rest.takeWhile isWsChar).length)]
    · unfold countHash
      refine countP_tw_zero _ _ ?_ _
      intro c hc
      by_cases he : c = '#'
      · rw [he] at hc; exact absurd hc (by decide)
      · simp [he]
  next heq =>
    split at h
    next c back heq2 =>
      simp only [Option.some_inj, Prod.mk.injEq] at h
      obtain ⟨h1, h2, h3⟩ := h
      subst h1; subst h2; subst h3
      have hallws : ∀ a ∈ rest, isWsChar a = true := by
        intro a ha
        have hle : rest.length ≤ (rest.takeWhile isWsChar).length := by
          have := List.drop_eq_nil_iff.mp heq
          exact this
        have hlen : (rest.takeWhile isWsChar).length = rest.length := by
          have h2 := (List.takeWhile_sublist (p := isWsChar) (l := rest)).length_le
          omega
        have heqtw : rest.takeWhile isWsChar = rest :=
          (List.takeWhile_prefix _).eq_of_length hlen
        rw [← heqtw] at ha
        exact List.mem_takeWhile_imp ha
      have hrev : rest.reverse.takeWhile (fun c => c = '\n') ++ (c :: back) = rest.reverse := by
        conv_rhs => rw [← tw_append_drop (fun c => c = '\n') rest.reverse]
        rw [heq2]
      constructor
      · have h5 : ((rest.reverse.takeWhile (fun c => c = '\n')) ++ (c :: back)).reverse = rest := by
          rw [hrev, List.reverse_reverse]
        conv_lhs => rw [← h5]
        rw [List.reverse_append, List.reverse_cons]
      · unfold countHash
        rw [List.countP_eq_zero]
        intro a ha
        have hab : a ∈ back := List.mem_reverse.mp ha
        have harev : a ∈ rest.reverse := by
          have hsub : (c :: back).Sublist (rest.reverse.drop
              (rest.reverse.takeWhile (fun c => c = '\n')).length) := by
            rw [heq2]
          have hsub2 : (c :: back).Sublist rest.reverse :=
            hsub.trans (List.drop_sublist _ _)
          exact hsub2.mem (List.mem_cons_of_mem _ hab)
        have hain : a ∈ rest := List.mem_reverse.mp harev
        have hws := hallws a hain
        by_cases he : a = '#'
        · rw [he] at hws; exact absurd hws (by decide)
        · simp [he]
    next => cases h

theorem headingHashTry_decomp (r : List Char) :
    ∀ (n hlvl : Nat) (w2 content after : List Char),
      headingHashTry r n = some (hlvl, w2, content, after) →
      1 ≤ hlvl ∧ hlvl ≤ n ∧ headingTailParse (r.drop hlvl) = some (w2, content, after) := by
  intro n
  induction n with
  | zero => intro hlvl w2 content after h; cases h
  | succ k ih =>
    intro hlvl w2 content after h
    unfold headingHashTry at h
    split at h
    next w2' content' after' heq =>
      simp only [Option.some_inj, Prod.mk.injEq] at h
      obtain ⟨h1, h2, h3, h4⟩ := h
      subst h1; subst h2; subst h3; subst h4
      exact ⟨by omega, by omega, heq⟩
    next heq =>
      obtain ⟨ha, hb, hc⟩ := ih hlvl w2 content after h
      exact ⟨ha, by omega, hc⟩

theorem take_eq_replicate_of_le (r : List Char) (c : Char) (hlvl : Nat)
    (hle : hlvl ≤ (r.takeWhile (fun x => x = c)).length) :
    r.take hlvl = List.replicate hlvl c := by
  have htwr : r.takeWhile (fun x => x = c) =
      List.replicate (r.takeWhile (fun x => x = c)).length c := by
    apply List.eq_replicate_iff.mpr
    refine ⟨rfl, ?_⟩
    intro b hb
    have hx := List.mem_takeWhile_imp hb
    exact decide_eq_true_eq.mp hx
  have htake : r.takeWhile (fun x => x = c) = r.take (r.takeWhile (fun x => x = c)).length :=
    List.prefix_iff_eq_take.mp (List.takeWhile_prefix _)
  have h1 : r.take hlvl = (r.take (r.takeWhile (fun x => x = c)).length).take hlvl := by
    rw [List.take_take]
    congr 1
    omega
  rw [h1, ← htake, htwr, List.take_replicate]
  congr 1
  omega

theorem headingTryAt_decomp (cs : List Char) (w1 : List Char) (hlvl : Nat)
    (w2 content after : List Char)
    (h : headingTryAt cs = some (w1, hlvl, w2, content, after)) :
    cs = w1 ++ List.replicate hlvl '#' ++ (w2 ++ content ++ after) ∧
      countHash w1 = 0 ∧ countHash w2 = 0 ∧ 1 ≤ hlvl := by
  unfold headingTryAt at h
  dsimp only at h
  split at h
  · cases h
  · split at h
    next lvl w2' content' after' heq =>
      simp only [Option.some_inj, Prod.mk.injEq] at h
      obtain ⟨h1, h2, h3, h4, h5⟩ := h
      subst h1; subst h2; subst h3; subst h4; subst h5
      obtain ⟨hge, hle, htail⟩ := headingHashTry_decomp _ _ _ _ _ _ heq
      obtain ⟨hsplit2, hw2⟩ := headingTailParse_decomp _ _ _ _ htail
      have hrep := take_eq_replicate_of_le
        (cs.drop (cs.takeWhile isWsChar).length) '#' lvl hle
      refine ⟨?_, ?_, hw2, hge⟩
      · conv_lhs => rw [← tw_append_drop isWsChar cs]
        rw [List.append_assoc]
        congr 1
        conv_lhs => rw [← List.take_append_drop lvl
          (cs.drop (cs.takeWhile isWsChar).length)]
        rw [hrep, hsplit2]
      · unfold countHash
        refine countP_tw_zero _ _ ?_ _
        intro c hc
        by_cases he : c = '#'
        · rw [he] at hc; exact absurd hc (by decide)
        · simp [he]
    next => cases h

theorem headingSearchGo_decomp :
    ∀ (text acc : List Char) (als : Bool) (pre w1 : List Char) (hlvl : Nat)
      (w2 content after : List Char),
      headingSearchGo acc als text = some (pre, w1, hlvl, w2, content, after) →
      ∃ cs, acc.reverse ++ text = pre ++ cs ∧
        headingTryAt cs = some (w1, hlvl, w2, content, after) := by
  intro text
  induction text with
  | nil => intro acc als pre w1 hlvl w2 content after h; cases h
  | cons c rest ih =>
    intro acc als pre w1 hlvl w2 content after h
    unfold headingSearchGo at h
    split at h
    next w1' hlvl' w2' content' after' heq =>
      simp only [Option.some_inj, Prod.mk.injEq] at h
      obtain ⟨h1, h2, h3, h4, h5, h6⟩ := h
      subst h1; subst h2; subst h3; subst h4; subst h5; subst h6
      refine ⟨c :: rest, rfl, ?_⟩
      cases als with
      | true => exact heq
      | false => cases heq
    next heq =>
      obtain ⟨cs, hcs, hf⟩ := ih (c :: acc) (c = '\n') pre w1 hlvl w2 content after h
      refine ⟨cs, ?_, hf⟩
      rw [← hcs]
      rw [List.reverse_cons, List.append_assoc]
      rfl

theorem headingSearch_decomp (text pre w1 : List Char) (hlvl : Nat)
    (w2 content after : List Char)
    (h : headingSearch text = some (pre, w1, hlvl, w2, content, after)) :
    ∃ cs, text = pre ++ cs ∧ headingTryAt cs = some (w1, hlvl, w2, content, after) := by
  obtain ⟨cs, hcs, hf⟩ := headingSearchGo_decomp text [] true pre w1 hlvl w2 content after h
  exact ⟨cs, by simpa using hcs, hf⟩

theorem countHash_fxApply_default (acc : List Char) (fx : HeadingEffect)
    (hfx : fx ∈ ([.emphasisFx "strong".data, .emphasisFx "moderate".data,
      .emphasisFx "reduced".data, .pauseFx "100ms".data, .pauseFx "75ms".data,
      .pauseFx "50ms".data] : List HeadingEffect)) :
    countHash (headingFxApply acc fx) = countHash acc := by
  simp only [List.mem_cons, List.not_mem_nil, or_false] at hfx
  rcases hfx with rfl | rfl | rfl | rfl | rfl | rfl <;>
    · unfold headingFxApply
      simp only [countHash_append]
      have e1 : countHash "<emphasis level=\"".data = 0 := by decide
      have e2 : countHash "strong".data = 0 := by decide
      have e3 : countHash "\">".data = 0 := by decide
      have e4 : countHash "</emphasis>".data = 0 := by decide
      have e5 : countHash "moderate".data = 0 := by decide
      have e6 : countHash "reduced".data = 0 := by decide
      have e7 : countHash " <break time=\"".data = 0 := by decide
      have e8 : countHash "100ms".data = 0 := by decide
      have e9 : countHash "75ms".data = 0 := by decide
      have e10 : countHash "50ms".data = 0 := by decide
      have e11 : countHash "\"/>".data = 0 := by decide
      dsimp only at e1 e2 e3 e4 e5 e6 e7 e8 e9 e10 e11 ⊢
      omega

theorem countHash_headingFold :
    ∀ (effects : List HeadingEffect),
      (∀ fx ∈ effects, fx ∈ ([.emphasisFx "strong".data, .emphasisFx "moderate".data,
        .emphasisFx "reduced".data, .pauseFx "100ms".data, .pauseFx "75ms".data,
        .pauseFx "50ms".data] : List HeadingEffect)) →
      ∀ acc, countHash (effects.foldl headingFxApply acc) = countHash acc := by
  intro effects
  induction effects with
  | nil => intro _ acc; rfl
  | cons fx fxs ih =>
    intro hfx acc
    rw [List.foldl_cons]
    rw [ih (fun a ha => hfx a (List.mem_cons_of_mem _ ha)) (headingFxApply acc fx)]
    exact countHash_fxApply_default acc fx (hfx fx (List.mem_cons_self _ _))

theorem countHash_headingResult_default (hlvl : Nat) (g0 content : List Char) :
    headingResult defaultHeadingLevels hlvl g0 content = g0 ∨
    countHash (headingResult defaultHeadingLevels hlvl g0 content) = countHash content := by
  unfold headingResult
  cases hf : defaultHeadingLevels.find? (fun p => p.1 = hlvl) with
  | none => left; rfl
  | some pe =>
    right
    obtain ⟨lv, effects⟩ := pe
    dsimp only
    have hmem : (lv, effects) ∈ defaultHeadingLevels := List.mem_of_find?_eq_some hf
    have heff : ∀ fx ∈ effects, fx ∈ ([.emphasisFx "strong".data, .emphasisFx "moderate".data,
        .emphasisFx "reduced".data, .pauseFx "100ms".data, .pauseFx "75ms".data,
        .pauseFx "50ms".data] : List HeadingEffect) := by
      simp only [defaultHeadingLevels, List.mem_cons, List.not_mem_nil, or_false,
        Prod.mk.injEq] at hmem
      rcases hmem with ⟨_, h2⟩ | ⟨_, h2⟩ | ⟨_, h2⟩ <;>
        · subst h2
          intro fx hfx
          simp only [List.mem_cons, List.not_mem_nil, or_false] at hfx
          rcases hfx with rfl | rfl <;> decide
    exact countHash_headingFold effects heff content

theorem countHash_replicate (n : Nat) : countHash (List.replicate n '#') = n := by
  unfold countHash
  exact countP_replicate_pos _ _ (by decide) n

theorem headingSubst_dec (text pre w1 : List Char) (hlvl : Nat)
    (w2 content after : List Char)
    (h : headingSearch text = some (pre, w1, hlvl, w2, content, after))
    (hne : headingSubst defaultHeadingLevels text ≠ text) :
    countHash (headingSubst defaultHeadingLevels text) < countHash text := by
  obtain ⟨cs, hcs, hf⟩ := headingSearch_decomp text pre w1 hlvl w2 content after h
  obtain ⟨hdec, hw1, hw2, hge⟩ := headingTryAt_decomp cs w1 hlvl w2 content after hf
  unfold headingSubst at hne ⊢
  rw [h] at hne ⊢
  dsimp only at hne ⊢
  rcases countHash_headingResult_default hlvl
      (w1 ++ List.replicate hlvl '#' ++ w2 ++ content) content with hcase | hcase
  · exfalso
    apply hne
    rw [hcase, hcs, hdec]
    simp [List.append_assoc]
  · rw [hcs, hdec]
    simp only [countHash_append, hcase, countHash_replicate]
    omega

theorem headingStrip_dec (text pre w1 : List Char) (hlvl : Nat)
    (w2 content after : List Char)
    (h : headingSearch text = some (pre, w1, hlvl, w2, content, after)) :
    countHash (headingStrip text) < countHash text := by
  obtain ⟨cs, hcs, hf⟩ := headingSearch_decomp text pre w1 hlvl w2 content after h
  obtain ⟨hdec, hw1, hw2, hge⟩ := headingTryAt_decomp cs w1 hlvl w2 content after hf
  unfold headingStrip
  rw [h]
  dsimp only
  rw [hcs, hdec]
  simp only [countHash_append, countHash_replicate]
  omega

theorem countPMk_append (xs ys : List Char) :
    countPMk (xs ++ ys) = countPMk xs + countPMk ys := by
  simp [countPMk, List.countP_append]

theorem prosodySearch_marker (t pre m c post : List Char)
    (h : prosodySearch t = some (pre, (m, c, post))) :
    t = pre ++ m ++ c ++ m ++ post ∧ m ∈ prosodyMarkers := by
  obtain ⟨pv, cs, hcs, hf⟩ := scanPrev_decomp prosodyTryAt t none pre (m, c, post) h
  have hmt : prosodyMarkerTry cs prosodyMarkers = some (m, c, post) := by
    cases pv with
    | none => exact hf
    | some p =>
      rw [show prosodyTryAt (some p) cs =
            (if isAlnumChar p = true then none else prosodyMarkerTry cs prosodyMarkers) from
          rfl] at hf
      by_cases hp : isAlnumChar p = true
      · rw [if_pos hp] at hf; cases hf
      · rw [if_neg hp] at hf; exact hf
  obtain ⟨hm, _, hdec⟩ := prosodyMarkerTry_decomp prosodyMarkers cs m c post hmt
  exact ⟨by rw [hcs, hdec]; simp, hm⟩

theorem prosodyMarker_pos (m : List Char) (hm : m ∈ prosodyMarkers) : 1 ≤ countPMk m := by
  simp only [prosodyMarkers, List.mem_cons, List.not_mem_nil, or_false] at hm
  rcases hm with rfl|rfl|rfl|rfl|rfl|rfl|rfl|rfl|rfl|rfl|rfl|rfl|rfl <;> decide

theorem prosodyStrip_dec (text pre m c post : List Char)
    (h : prosodySearch text = some (pre, (m, c, post))) :
    countPMk (prosodyStrip text) < countPMk text := by
  obtain ⟨hdec, hm⟩ := prosodySearch_marker text pre m c post h
  have hpos := prosodyMarker_pos m hm
  unfold prosodyStrip
  rw [h]
  dsimp only
  rw [hdec]
  simp only [countPMk_append]
  omega

theorem countPMk_prosodyResult (m c : List Char) (hm : m ∈ prosodyMarkers) :
    prosodyResult m c = m ++ c ++ m ∨
    countPMk (prosodyResult m c) + 1 ≤ countPMk m + countPMk c + countPMk m := by
  simp only [prosodyMarkers, List.mem_cons, List.not_mem_nil, or_false] at hm
  rcases hm with rfl|rfl|rfl|rfl|rfl|rfl|rfl|rfl|rfl|rfl|rfl|rfl|rfl
  · left
    rfl
  · right
    rw [show prosodyResult "--".data c =
      "<prosody volume=\"".data ++ ("x-soft".data ++ ("\">".data ++ (c ++ "</prosody>".data))) from rfl]
    simp only [countPMk_append]
    have e1 : countPMk "<prosody volume=\"".data = 0 := by decide
    have e2 : countPMk "x-soft".data = 1 := by decide
    have e3 : countPMk "\">".data = 0 := by decide
    have e4 : countPMk "</prosody>".data = 0 := by decide
    have e6 : countPMk "--".data = 2 := by decide
    dsimp only at e1 e2 e3 e4 e6 ⊢
    omega
  · right
    rw [show prosodyResult "++".data c =
      "<prosody volume=\"".data ++ ("x-loud".data ++ ("\">".data ++ (c ++ "</prosody>".data))) from rfl]
    simp only [countPMk_append]
    have e1 : countPMk "<prosody volume=\"".data = 0 := by decide
    have e2 : countPMk "x-loud".data = 1 := by decide
    have e3 : countPMk "\">".data = 0 := by decide
    have e4 : countPMk "</prosody>".data = 0 := by decide
    have e6 : countPMk "++".data = 2 := by decide
    dsimp only at e1 e2 e3 e4 e6 ⊢
    omega
  · right
    rw [show prosodyResult "-".data c =
      "<prosody volume=\"".data ++ ("soft".data ++ ("\">".data ++ (c ++ "</prosody>".data))) from rfl]
    simp only [countPMk_append]
    have e1 : countPMk "<prosody volume=\"".data = 0 := by decide
    have e2 : countPMk "soft".data = 0 := by decide
    have e3 : countPMk "\">".data = 0 := by decide
    have e4 : countPMk "</prosody>".data = 0 := by decide
    have e6 : countPMk "-".data = 1 := by decide
    dsimp only at e1 e2 e3 e4 e6 ⊢
    omega
  · right
    rw [show prosodyResult "+".data c =
      "<prosody volume=\"".data ++ ("loud".data ++ ("\">".data ++ (c ++ "</prosody>".data))) from rfl]
    simp only [countPMk_append]
    have e1 : countPMk "<prosody volume=\"".data = 0 := by decide
    have e2 : countPMk "loud".data = 0 := by decide
    have e3 : countPMk "\">".data = 0 := by decide
    have e4 : countPMk "</prosody>".data = 0 := by decide
    have e6 : countPMk "+".data = 1 := by decide
    dsimp only at e1 e2 e3 e4 e6 ⊢
    omega
  · right
    rw [show prosodyResult "&lt;&lt;".data c =
      "<prosody rate=\"".data ++ ("x-slow".data ++ ("\">".data ++ (c ++ "</prosody>".data))) from rfl]
    simp only [countPMk_append]
    have e1 : countPMk "<prosody rate=\"".data = 0 := by decide
    have e2 : countPMk "x-slow".data = 1 := by decide
    have e3 : countPMk "\">".data = 0 := by decide
    have e4 : countPMk "</prosody>".data = 0 := by decide
    have e6 : countPMk "&lt;&lt;".data = 2 := by decide
    dsimp only at e1 e2 e3 e4 e6 ⊢
    omega
  · right
    rw [show prosodyResult "&lt;".data c =
      "<prosody rate=\"".data ++ ("slow".data ++ ("\">".data ++ (c ++ "</prosody>".data))) from rfl]
    simp only [countPMk_append]
    have e1 : countPMk "<prosody rate=\"".data = 0 := by decide
    have e2 : countPMk "slow".data = 0 := by decide
    have e3 : countPMk "\">".data = 0 := by decide
    have e4 : countPMk "</prosody>".data = 0 := by decide
    have e6 : countPMk "&lt;".data = 1 := by decide
    dsimp only at e1 e2 e3 e4 e6 ⊢
    omega
  · right
    rw [show prosodyResult "&gt;&gt;".data c =
      "<prosody rate=\"".data ++ ("x-fast".data ++ ("\">".data ++ (c ++ "</prosody>".data))) from rfl]
    simp only [countPMk_append]
    have e1 : countPMk "<prosody rate=\"".data = 0 := by decide
    have e2 : countPMk "x-fast".data = 1 := by decide
    have e3 : countPMk "\">".data = 0 := by decide
    have e4 : countPMk "</prosody>".data = 0 := by decide
    have e6 : countPMk "&gt;&gt;".data = 2 := by decide
    dsimp only at e1 e2 e3 e4 e6 ⊢
    omega
  · right
    rw [show prosodyResult "&gt;".data c =
      "<prosody rate=\"".data ++ ("fast".data ++ ("\">".data ++ (c ++ "</prosody>".data))) from rfl]
    simp only [countPMk_append]
    have e1 : countPMk "<prosody rate=\"".data = 0 := by decide
    have e2 : countPMk "fast".data = 0 := by decide
    have e3 : countPMk "\">".data = 0 := by decide
    have e4 : countPMk "</prosody>".data = 0 := by decide
    have e6 : countPMk "&gt;".data = 1 := by decide
    dsimp only at e1 e2 e3 e4 e6 ⊢
    omega
  · right
    rw [show prosodyResult "__".data c =
      "<prosody pitch=\"".data ++ ("x-low".data ++ ("\">".data ++ (c ++ "</prosody>".data))) from rfl]
    simp only [countPMk_append]
    have e1 : countPMk "<prosody pitch=\"".data = 0 := by decide
    have e2 : countPMk "x-low".data = 1 := by decide
    have e3 : countPMk "\">".data = 0 := by decide
    have e4 : countPMk "</prosody>".data = 0 := by decide
    have e6 : countPMk "__".data = 2 := by decide
    dsimp only at e1 e2 e3 e4 e6 ⊢
    omega
  · right
    rw [show prosodyResult "^^".data c =
      "<prosody pitch=\"".data ++ ("x-high".data ++ ("\">".data ++ (c ++ "</prosody>".data))) from rfl]
    simp only [countPMk_append]
    have e1 : countPMk "<prosody pitch=\"".data = 0 := by decide
    have e2 : countPMk "x-high".data = 1 := by decide
    have e3 : countPMk "\">".data = 0 := by decide
    have e4 : countPMk "</prosody>".data = 0 := by decide
    have e6 : countPMk "^^".data = 2 := by decide
    dsimp only at e1 e2 e3 e4 e6 ⊢
    omega
  · right
    rw [show prosodyResult "_".data c =
      "<prosody pitch=\"".data ++ ("low".data ++ ("\">".data ++ (c ++ "</prosody>".data))) from rfl]
    simp only [countPMk_append]
    have e1 : countPMk "<prosody pitch=\"".data = 0 := by decide
    have e2 : countPMk "low".data = 0 := by decide
    have e3 : countPMk "\">".data = 0 := by decide
    have e4 : countPMk "</prosody>".data = 0 := by decide
    have e6 : countPMk "_".data = 1 := by decide
    dsimp only at e1 e2 e3 e4 e6 ⊢
    omega
  · right
    rw [show prosodyResult "^".data c =
      "<prosody pitch=\"".data ++ ("high".data ++ ("\">".data ++ (c ++ "</prosody>".data))) from rfl]
    simp only [countPMk_append]
    have e1 : countPMk "<prosody pitch=\"".data = 0 := by decide
    have e2 : countPMk "high".data = 0 := by decide
    have e3 : countPMk "\">".data = 0 := by decide
    have e4 : countPMk "</prosody>".data = 0 := by decide
    have e6 : countPMk "^".data = 1 := by decide
    dsimp only at e1 e2 e3 e4 e6 ⊢
    omega

theorem prosodySubstGo_count : ∀ (fuel : Nat) (text : List Char),
    countPMk (prosodySubstGo fuel text) ≤ countPMk text ∧
    (prosodySubstGo fuel text ≠ text → countPMk (prosodySubstGo fuel text) < countPMk text) := by
  intro fuel
  induction fuel with
  | zero =>
    intro text
    exact ⟨Nat.le_refl _, fun hne => absurd rfl hne⟩
  | succ n ih =>
    intro text
    rw [show prosodySubstGo (n + 1) text =
      (match prosodySearch text with
        | none => text
        | some (pre, (marker, content, post)) =>
          if prosodyInAttr pre then
            text.take (pre.length + marker.length + content.length + marker.length) ++
              prosodySubstGo n
                (text.drop (pre.length + marker.length + content.length + marker.length))
          else pre ++ prosodyResult marker content ++ post) from rfl]
    cases hs : prosodySearch text with
    | none =>
      dsimp only
      exact ⟨Nat.le_refl _, fun hne => absurd rfl hne⟩
    | some pmc =>
      obtain ⟨pre, marker, content, post⟩ := pmc
      dsimp only
      by_cases hA : prosodyInAttr pre = true
      · rw [if_pos hA]
        obtain ⟨ihle, ihlt⟩ := ih
          (text.drop (pre.length + marker.length + content.length + marker.length))
        have hsplit : countPMk text =
            countPMk (text.take (pre.length + marker.length + content.length + marker.length)) +
            countPMk (text.drop (pre.length + marker.length + content.length + marker.length)) := by
          conv_lhs => rw [← List.take_append_drop
            (pre.length + marker.length + content.length + marker.length) text]
          rw [countPMk_append]
        constructor
        · rw [countPMk_append]
          omega
        · intro hne
          rw [countPMk_append]
          have hne2 : prosodySubstGo n
              (text.drop (pre.length + marker.length + content.length + marker.length)) ≠
              text.drop (pre.length + marker.length + content.length + marker.length) := by
            intro he
            apply hne
            rw [he]
            exact List.take_append_drop _ _
          have := ihlt hne2
          omega
      · rw [if_neg hA]
        obtain ⟨hdec, hm⟩ := prosodySearch_marker text pre marker content post hs
        rcases countPMk_prosodyResult marker content hm with hcase | hcase
        · have heq : pre ++ prosodyResult marker content ++ post = text := by
            rw [hcase, hdec]
            simp [List.append_assoc]
          rw [heq]
          exact ⟨Nat.le_refl _, fun hne => absurd rfl hne⟩
        · have hlt : countPMk (pre ++ prosodyResult marker content ++ post) < countPMk text := by
            rw [hdec]
            simp only [countPMk_append]
            omega
          exact ⟨le_of_lt hlt, fun _ => hlt⟩

theorem prosodySubst_dec (text : List Char) (hne : prosodySubst text ≠ text) :
    countPMk (prosodySubst text) < countPMk text := by
  unfold prosodySubst at hne ⊢
  exact (prosodySubstGo_count (text.length + 1) text).2 hne

theorem processRec_total (p : Proc) (stripMode : Bool) (μ : List Char → Nat)
    (hdec : p.allAtOnce = true ∨
      ∀ t, p.matchesF t = true →
        (if stripMode then p.stripF t else p.substF t) ≠ t →
        μ (if stripMode then p.stripF t else p.substF t) < μ t) :
    ∀ (fuel : Nat) (text : List Char), μ text < fuel →
      ∃ r, processRec p stripMode fuel text = some r := by
  intro fuel
  induction fuel with
  | zero => intro text ht; exact absurd ht (Nat.not_lt_zero _)
  | succ n ih =>
    intro text ht
    unfold processRec
    by_cases hA : p.allAtOnce = true
    · rw [if_pos hA]
      exact ⟨_, rfl⟩
    · rw [if_neg hA]
      rcases hdec with hdec | hdec
      · exact absurd hdec hA
      by_cases hM : p.matchesF text = true
      · rw [if_pos hM]
        dsimp only
        by_cases hEq : (if stripMode then p.stripF text else p.substF text) = text
        · rw [if_pos hEq]
          exact ⟨text, rfl⟩
        · rw [if_neg hEq]
          refine ih _ ?_
          have := hdec text hM hEq
          omega
      · rw [if_neg hM]
        exact ⟨text, rfl⟩

theorem countEm_le_length (t : List Char) : countEm t ≤ t.length :=
  List.countP_le_length _

theorem countBr_le_length (t : List Char) : countBr t ≤ t.length :=
  List.countP_le_length _

theorem countAt_le_length (t : List Char) : countAt t ≤ t.length :=
  List.countP_le_length _

theorem countDot_le_length (t : List Char) : countDot t ≤ t.length :=
  List.countP_le_length _

theorem countHash_le_length (t : List Char) : countHash t ≤ t.length :=
  List.countP_le_length _

theorem countPMk_le_length (t : List Char) : countPMk t ≤ t.length :=
  List.countP_le_length _

/-- C2: every processor of the default pipeline reaches a fixed point: each
admits a marker-count measure bounded by the text length that strictly
decreases on every text-changing replacement pass, so the recursion of
`_process_recursively` terminates within measure-many passes. -/
theorem processor_fixed_point_terminates :
    ∀ p ∈ pipelineProcs defaultConfig, ∀ stripMode : Bool,
      ∃ μ : List Char → Nat,
        (∀ t : List Char, μ t ≤ t.length) ∧
        ∀ (fuel : Nat) (text : List Char), μ text < fuel →
          ∃ r, processRec p stripMode fuel text = some r := by
  intro p hp stripMode
  rw [show pipelineProcs defaultConfig = allProcs defaultConfig from rfl] at hp
  unfold allProcs at hp
  simp only [List.mem_cons, List.not_mem_nil, or_false] at hp
  rcases hp with rfl | rfl | rfl | rfl | rfl | rfl | rfl | rfl
  · refine ⟨countEm, countEm_le_length, processRec_total _ _ _ (Or.inr ?_)⟩
    intro t hM hne
    dsimp only at hM hne ⊢
    rw [Option.isSome_iff_exists] at hM
    obtain ⟨⟨pre, k, content, rest⟩, hx⟩ := hM
    cases stripMode with
    | true =>
      rw [if_pos rfl] at hne ⊢
      exact emphasisStrip_dec t pre k content rest hx
    | false =>
      rw [if_neg (by simp)] at hne ⊢
      exact emphasisSubst_dec t pre k content rest hx
  · refine ⟨countBr, countBr_le_length, processRec_total _ _ _ (Or.inr ?_)⟩
    intro t hM hne
    dsimp only at hM hne ⊢
    rw [Option.isSome_iff_exists] at hM
    obtain ⟨⟨pre, txt, ps, rest⟩, hx⟩ := hM
    cases stripMode with
    | true =>
      rw [if_pos rfl] at hne ⊢
      exact annStrip_dec t pre txt ps rest hx
    | false =>
      rw [if_neg (by simp)] at hne ⊢
      exact annSubst_dec defaultConfig.capabilities t pre txt ps rest hx
  · refine ⟨countAt, countAt_le_length, processRec_total _ _ _ (Or.inr ?_)⟩
    intro t hM hne
    dsimp only at hM hne ⊢
    rw [Option.isSome_iff_exists] at hM
    obtain ⟨⟨pre, w, rest⟩, hx⟩ := hM
    cases stripMode with
    | true =>
      rw [if_pos rfl] at hne ⊢
      exact markStrip_dec t pre w rest hx
    | false =>
      rw [if_neg (by simp)] at hne ⊢
      exact markSubst_dec t pre w rest hx
  · refine ⟨countPMk, countPMk_le_length, processRec_total _ _ _ (Or.inr ?_)⟩
    intro t hM hne
    dsimp only at hM hne ⊢
    rw [Option.isSome_iff_exists] at hM
    obtain ⟨⟨pre, m, c, post⟩, hx⟩ := hM
    cases stripMode with
    | true =>
      rw [if_pos rfl] at hne ⊢
      exact prosodyStrip_dec t pre m c post hx
    | false =>
      rw [if_neg (by simp)] at hne ⊢
      exact prosodySubst_dec t hne
  · refine ⟨countHash, countHash_le_length, processRec_total _ _ _ (Or.inr ?_)⟩
    intro t hM hne
    dsimp only at hM hne ⊢
    rw [Option.isSome_iff_exists] at hM
    obtain ⟨⟨pre, w1, hlvl, w2, content, after⟩, hx⟩ := hM
    cases stripMode with
    | true =>
      rw [if_pos rfl] at hne ⊢
      exact headingStrip_dec t pre w1 hlvl w2 content after hx
    | false =>
      rw [if_neg (by simp)] at hne ⊢
      exact headingSubst_dec t pre w1 hlvl w2 content after hx hne
  · exact ⟨fun _ => 0, fun t => Nat.zero_le _,
      processRec_total _ _ _ (Or.inl rfl)⟩
  · refine ⟨fun _ => 0, fun t => Nat.zero_le _, processRec_total _ _ _ (Or.inr ?_)⟩
    intro t hM hne
    dsimp only at hM
    rw [show defaultConfig.autoSentenceTags = false from rfl] at hM
    simp at hM
  · refine ⟨countDot, countDot_le_length, processRec_total _ _ _ (Or.inr ?_)⟩
    intro t hM hne
    dsimp only at hM hne ⊢
    rw [Option.isSome_iff_exists] at hM
    obtain ⟨⟨pre, m, rest⟩, hx⟩ := hM
    cases stripMode with
    | true =>
      rw [if_pos rfl] at hne ⊢
      exact breakStrip_dec t pre m rest hx
    | false =>
      rw [if_neg (by simp)] at hne ⊢
      exact breakSubst_dec t pre m rest hx

theorem processor_fixed_point_terminates_witness :
    ∃ r, processRec
      { name := "emphasis".data,
        matchesF := fun t => (emphasisSearch t).isSome,
        substF := emphasisSubst, stripF := emphasisStrip }
      false 8 "*hi*".data = some r := by
  obtain ⟨μ, hμ, hterm⟩ := processor_fixed_point_terminates
    { name := "emphasis".data,
      matchesF := fun t => (emphasisSearch t).isSome,
      substF := emphasisSubst, stripF := emphasisStrip }
    (by rw [show pipelineProcs defaultConfig = allProcs defaultConfig from rfl]
        unfold allProcs
        exact List.mem_cons_self _ _)
    false
  exact hterm 8 "*hi*".data (lt_of_le_of_lt (hμ _) (by decide))

